import Mathlib

/-!
# Array max-heap and heap sort

A shallow embedding of `007-堆的定义与基本操作及堆排序.cpp`: the global array
`int heap[maxn]` and the global count `int n`, with the six procedures
`downAdjust`, `createHeap`, `deleteTop`, `upAdjust`, `insert` and `heapSort`.

* The array is a map from `int` indices to `int` values (`Int → Int`); the slots the
  C++ array really has are the indices `0 .. maxn - 1`.  An access to any other index
  is undefined behaviour in C++; the logging copies of the procedures (`downAdjustT`,
  `insertT`, ...) record every index touched, and `Completes` says that a run returned
  having touched slots of the array only.  Every theorem about the result of a
  procedure is stated for inputs on which all accesses are slots of the array.
* Indices and the count are `Int`, as in the source (`int low, int high`, `int n`).
  The doubling `2 * i` of `downAdjust` is 32-bit `int` arithmetic and is wrapped to the
  `int` range by `wrap32`; it is the only arithmetic of the file that can leave the
  `int` range while `high` is at most `maxn - 1` and the count is in `0 .. maxn - 1`
  (`j + 1` is evaluated only after `j <= high`; `n / 2`, `i--`, `n--`, `++n` and `i - 1`
  stay in the range for such counts), and every theorem is stated for such inputs.
  The source's `i / 2` is C++ truncating division, `Int.tdiv`.
* The two `while` loops are recursion on a fuel counter and return `none` when the
  fuel runs out; the two `for` loops count their iterations down.
-/

namespace ArrayHeap

/-! ## Data model -/

/-- Capacity constant `const int maxn = 100;`. -/
def maxn : Int := 100

/-- Global state: the backing array `heap` and the element count `n`. -/
structure HeapState where
  heap : Int → Int
  n : Int

/-- Effect of `std::swap(heap[a], heap[b])` on the array. -/
def swap (heap : Int → Int) (a b : Int) : Int → Int :=
  fun k => if k = a then heap b else if k = b then heap a else heap k

/-- Effect of the assignment `heap[a] = v` on the array. -/
def store (heap : Int → Int) (a v : Int) : Int → Int :=
  fun k => if k = a then v else heap k

/-- Result of 32-bit `int` arithmetic: the exact result reduced to the range
`-2^31 .. 2^31 - 1` by two's-complement wrap-around, which is what the compiled code
computes when a signed operation overflows (in C++ itself the overflow is undefined
behaviour).  On results inside the `int` range it is the identity. -/
def wrap32 (x : Int) : Int :=
  (x + 2147483648) % 4294967296 - 2147483648

/-! ## Procedures -/

/-- The `while (j <= high)` loop of `downAdjust`, entered with the cursor `i` and the
child index `j`; one unit of fuel is spent per evaluation of the loop condition. -/
def downAdjustLoop : Nat → (Int → Int) → Int → Int → Int → Option (Int → Int)
  | 0, _, _, _, _ => none
  | fuel + 1, heap, i, j, high =>
    if j ≤ high then
      let j := if j + 1 ≤ high ∧ heap (j + 1) > heap j then j + 1 else j
      if heap j > heap i then
        downAdjustLoop fuel (swap heap i j) j (wrap32 (2 * j)) high
      else
        some heap
    else
      some heap

/-- The procedure `downAdjust(low, high)`: `int i = low, j = 2 * i;` and then the loop. -/
def downAdjust (heap : Int → Int) (low high : Int) : Option (Int → Int) :=
  downAdjustLoop ((high - low).toNat + 2) heap low (wrap32 (2 * low)) high

/-- The `for (int i = n / 2; i >= 1; i--)` loop of `createHeap` with `k` iterations
left: the loop variable is `i = k`, and the body is `downAdjust(i, n)`. -/
def createHeapLoop : Nat → (Int → Int) → Int → Option (Int → Int)
  | 0, heap, _ => some heap
  | k + 1, heap, n =>
    (downAdjust heap ((k : Int) + 1) n).bind fun heap1 => createHeapLoop k heap1 n

/-- The procedure `createHeap()`. -/
def createHeap (s : HeapState) : Option HeapState :=
  (createHeapLoop (Int.tdiv s.n 2).toNat s.heap s.n).map fun heap1 => ⟨heap1, s.n⟩

/-- The procedure `deleteTop()`: `heap[1] = heap[n]; n--; downAdjust(1, n);`. -/
def deleteTop (s : HeapState) : Option HeapState :=
  (downAdjust (store s.heap 1 (s.heap s.n)) 1 (s.n - 1)).map fun heap1 => ⟨heap1, s.n - 1⟩

/-- The `while (j >= low)` loop of `upAdjust`, entered with the cursor `i` and the
parent index `j`. -/
def upAdjustLoop : Nat → (Int → Int) → Int → Int → Int → Option (Int → Int)
  | 0, _, _, _, _ => none
  | fuel + 1, heap, low, i, j =>
    if j ≥ low then
      if heap i > heap j then
        upAdjustLoop fuel (swap heap i j) low j (Int.tdiv j 2)
      else
        some heap
    else
      some heap

/-- The procedure `upAdjust(low, high)`: `int i = high, j = i / 2;` and then the loop. -/
def upAdjust (heap : Int → Int) (low high : Int) : Option (Int → Int) :=
  upAdjustLoop (high.natAbs + 2) heap low high (Int.tdiv high 2)

/-- The procedure `insert(x)`: `heap[++n] = x; upAdjust(1, n);`. -/
def insert (s : HeapState) (x : Int) : Option HeapState :=
  (upAdjust (store s.heap (s.n + 1) x) 1 (s.n + 1)).map fun heap1 => ⟨heap1, s.n + 1⟩

/-- The `for (int i = n; i > 1; i--)` loop of `heapSort` with `k` iterations left: the
loop variable is `i = k + 1`, and the body is `swap(heap[i], heap[1]); downAdjust(1, i - 1);`. -/
def heapSortLoop : Nat → (Int → Int) → Option (Int → Int)
  | 0, heap => some heap
  | k + 1, heap =>
    (downAdjust (swap heap ((k : Int) + 2) 1) 1 ((k : Int) + 1)).bind fun heap1 =>
      heapSortLoop k heap1

/-- The procedure `heapSort()`: `createHeap();` and then the loop from `i = n` down to `2`. -/
def heapSort (s : HeapState) : Option HeapState :=
  (createHeap s).bind fun s1 =>
    (heapSortLoop (s1.n - 1).toNat s1.heap).map fun heap1 => ⟨heap1, s1.n⟩

/-! ## Specification vocabulary -/

/-- The segment `heap[1..n]` as a list. -/
def segment (heap : Int → Int) (n : Int) : List Int :=
  (List.range n.toNat).map fun (k : Nat) => heap ((k : Int) + 1)

/-- The state whose segment `heap[1..n]` is the list `xs` (every other slot holds `0`)
and whose count is the length of `xs`. -/
def ofList (xs : List Int) : HeapState :=
  ⟨fun k => if 1 ≤ k then xs.getD (k - 1).toNat 0 else 0, xs.length⟩

/-- Max-heap property of the index range `[low, high]`: every node of the range is at
least as large as each of its children `2p`, `2p+1` that lie within `high`. -/
def MaxHeapOn (heap : Int → Int) (low high : Int) : Prop :=
  ∀ p, low ≤ p → p ≤ high → ∀ c, (c = 2 * p ∨ c = 2 * p + 1) → c ≤ high → heap p ≥ heap c

/-- Node `k` lies in the subtree rooted at node `i` (children of `p` are `2p`, `2p+1`). -/
inductive InSubtree (i : Int) : Int → Prop
  | root : InSubtree i i
  | left {k : Int} : InSubtree i k → InSubtree i (2 * k)
  | right {k : Int} : InSubtree i k → InSubtree i (2 * k + 1)

/-- The remove-top sequence scenario: reading `heap[1]` and then calling `deleteTop()`,
repeated `k` times; returns the values read, in order, and the final state.  This is a
driver composed from `deleteTop`, not a procedure of the source file. -/
def drain : Nat → HeapState → Option (List Int × HeapState)
  | 0, s => some ([], s)
  | k + 1, s =>
    (deleteTop s).bind fun s1 =>
      (drain k s1).map fun r => (s.heap 1 :: r.1, r.2)

/-- The array `heap1` arises from `heap` by finitely many swaps of two slots that both
lie in the index range `[lo, hi]`. -/
inductive Swaps (lo hi : Int) : (Int → Int) → (Int → Int) → Prop
  | refl (heap : Int → Int) : Swaps lo hi heap heap
  | step {heap heap1 : Int → Int} (a b : Int) :
      lo ≤ a → a ≤ hi → lo ≤ b → b ≤ hi → Swaps lo hi (swap heap a b) heap1 →
      Swaps lo hi heap heap1

/-- The segment `heap[low..high]` as a list. -/
def segmentFrom (heap : Int → Int) (low high : Int) : List Int :=
  (List.range (high + 1 - low).toNat).map fun (k : Nat) => heap (low + (k : Int))

/-- A logged run completes on the array `int heap[maxn]`: it returns, and every index
it touched is one of the slots `0 .. maxn - 1`.  A run that touches any other index has
undefined behaviour at that access and does not complete. -/
def Completes {α : Type} (r : Option (α × List Int)) : Prop :=
  ∃ a t, r = some (a, t) ∧ ∀ k ∈ t, 0 ≤ k ∧ k < maxn

/-! ## Procedures with an access log

The same six procedures, each returning in addition the list of the array indices it
reads or writes, in program order.  A comparison `heap[a] > heap[b]` logs `a, b`, a
`swap(heap[a], heap[b])` logs `a, b`, an assignment `heap[a] = heap[b]` logs `b, a`; the
short-circuit `j + 1 <= high && heap[j + 1] > heap[j]` logs nothing when `j + 1 > high`. -/

/-- The loop of `downAdjust` with its access log. -/
def downAdjustLoopT : Nat → (Int → Int) → Int → Int → Int → Option ((Int → Int) × List Int)
  | 0, _, _, _, _ => none
  | fuel + 1, heap, i, j, high =>
    if j ≤ high then
      let t1 := if j + 1 ≤ high then [j + 1, j] else []
      let j := if j + 1 ≤ high ∧ heap (j + 1) > heap j then j + 1 else j
      if heap j > heap i then
        (downAdjustLoopT fuel (swap heap i j) j (wrap32 (2 * j)) high).map fun r =>
          (r.1, t1 ++ [j, i, i, j] ++ r.2)
      else
        some (heap, t1 ++ [j, i])
    else
      some (heap, [])

/-- The procedure `downAdjust(low, high)` with its access log. -/
def downAdjustT (heap : Int → Int) (low high : Int) : Option ((Int → Int) × List Int) :=
  downAdjustLoopT ((high - low).toNat + 2) heap low (wrap32 (2 * low)) high

/-- The loop of `createHeap` with its access log. -/
def createHeapLoopT : Nat → (Int → Int) → Int → Option ((Int → Int) × List Int)
  | 0, heap, _ => some (heap, [])
  | k + 1, heap, n =>
    (downAdjustT heap ((k : Int) + 1) n).bind fun r1 =>
      (createHeapLoopT k r1.1 n).map fun r2 => (r2.1, r1.2 ++ r2.2)

/-- The procedure `createHeap()` with its access log. -/
def createHeapT (s : HeapState) : Option (HeapState × List Int) :=
  (createHeapLoopT (Int.tdiv s.n 2).toNat s.heap s.n).map fun r => (⟨r.1, s.n⟩, r.2)

/-- The procedure `deleteTop()` with its access log. -/
def deleteTopT (s : HeapState) : Option (HeapState × List Int) :=
  (downAdjustT (store s.heap 1 (s.heap s.n)) 1 (s.n - 1)).map fun r =>
    (⟨r.1, s.n - 1⟩, [s.n, 1] ++ r.2)

/-- The loop of `upAdjust` with its access log. -/
def upAdjustLoopT : Nat → (Int → Int) → Int → Int → Int → Option ((Int → Int) × List Int)
  | 0, _, _, _, _ => none
  | fuel + 1, heap, low, i, j =>
    if j ≥ low then
      if heap i > heap j then
        (upAdjustLoopT fuel (swap heap i j) low j (Int.tdiv j 2)).map fun r =>
          (r.1, [i, j, i, j] ++ r.2)
      else
        some (heap, [i, j])
    else
      some (heap, [])

/-- The procedure `upAdjust(low, high)` with its access log. -/
def upAdjustT (heap : Int → Int) (low high : Int) : Option ((Int → Int) × List Int) :=
  upAdjustLoopT (high.natAbs + 2) heap low high (Int.tdiv high 2)

/-- The procedure `insert(x)` with its access log. -/
def insertT (s : HeapState) (x : Int) : Option (HeapState × List Int) :=
  (upAdjustT (store s.heap (s.n + 1) x) 1 (s.n + 1)).map fun r =>
    (⟨r.1, s.n + 1⟩, [s.n + 1] ++ r.2)

/-- The loop of `heapSort` with its access log. -/
def heapSortLoopT : Nat → (Int → Int) → Option ((Int → Int) × List Int)
  | 0, heap => some (heap, [])
  | k + 1, heap =>
    (downAdjustT (swap heap ((k : Int) + 2) 1) 1 ((k : Int) + 1)).bind fun r1 =>
      (heapSortLoopT k r1.1).map fun r2 => (r2.1, [(k : Int) + 2, 1] ++ r1.2 ++ r2.2)

/-- The procedure `heapSort()` with its access log. -/
def heapSortT (s : HeapState) : Option (HeapState × List Int) :=
  (createHeapT s).bind fun r1 =>
    (heapSortLoopT (r1.1.n - 1).toNat r1.1.heap).map fun r2 =>
      (⟨r2.1, r1.1.n⟩, r1.2 ++ r2.2)

/-! ## Basic facts about `swap`, `store` and `segment` -/

theorem swap_left (heap : Int → Int) (a b : Int) : swap heap a b a = heap b := by
  simp [swap]

theorem swap_right (heap : Int → Int) (a b : Int) : swap heap a b b = heap a := by
  unfold swap
  by_cases h : b = a
  · simp [h]
  · simp [h]

theorem swap_other (heap : Int → Int) (a b k : Int) (ha : k ≠ a) (hb : k ≠ b) :
    swap heap a b k = heap k := by
  simp [swap, ha, hb]

theorem store_same (heap : Int → Int) (a v : Int) : store heap a v a = v := by
  simp [store]

theorem store_other (heap : Int → Int) (a v k : Int) (h : k ≠ a) :
    store heap a v k = heap k := by
  simp [store, h]

theorem mem_segment (heap : Int → Int) (n x : Int) :
    x ∈ segment heap n ↔ ∃ k, 1 ≤ k ∧ k ≤ n ∧ heap k = x := by
  unfold segment
  simp only [List.mem_map, List.mem_range]
  constructor
  · rintro ⟨a, ha, rfl⟩
    exact ⟨(a : Int) + 1, by omega, by omega, rfl⟩
  · rintro ⟨k, h1, h2, rfl⟩
    refine ⟨(k - 1).toNat, by omega, ?_⟩
    congr 1
    omega

theorem segment_congr (heap heap1 : Int → Int) (n : Int)
    (h : ∀ k, 1 ≤ k → k ≤ n → heap k = heap1 k) : segment heap n = segment heap1 n := by
  unfold segment
  apply List.map_congr_left
  intro a ha
  rw [List.mem_range] at ha
  exact h _ (by omega) (by omega)

theorem segment_succ (heap : Int → Int) (n : Int) (hn : 0 ≤ n) :
    segment heap (n + 1) = segment heap n ++ [heap (n + 1)] := by
  unfold segment
  have e : (n + 1).toNat = n.toNat + 1 := by omega
  rw [e, List.range_succ, List.map_append]
  congr 1
  simp only [List.map_cons, List.map_nil]
  congr 2
  omega

theorem segment_length (heap : Int → Int) (n : Int) : (segment heap n).length = n.toNat := by
  simp [segment]

theorem segment_nonpos (heap : Int → Int) (n : Int) (hn : n ≤ 0) : segment heap n = [] := by
  unfold segment
  have e : n.toNat = 0 := by omega
  rw [e]
  rfl

/-- Swapping two slots of `[1, n]` permutes the segment `heap[1..n]`. -/
theorem segment_swap_perm (heap : Int → Int) (n a b : Int)
    (ha1 : 1 ≤ a) (ha2 : a ≤ n) (hb1 : 1 ≤ b) (hb2 : b ≤ n) :
    (segment (swap heap a b) n).Perm (segment heap n) := by
  let f : Int → Int := fun k => if k = a then b else if k = b then a else k
  let L : List Int := (List.range n.toNat).map fun (k : Nat) => (k : Int) + 1
  have hf : ∀ k, swap heap a b k = heap (f k) := by
    intro k
    show _ = heap (if k = a then b else if k = b then a else k)
    unfold swap
    split_ifs <;> rfl
  have hff : ∀ k, f (f k) = k := by
    intro k
    show (if (if k = a then b else if k = b then a else k) = a then b
      else if (if k = a then b else if k = b then a else k) = b then a
      else (if k = a then b else if k = b then a else k)) = k
    split_ifs <;> omega
  have hinj : Function.Injective f := fun x y h => by
    have := congrArg f h
    rwa [hff, hff] at this
  have hL : ∀ x, x ∈ L ↔ 1 ≤ x ∧ x ≤ n := by
    intro x
    simp only [L, List.mem_map, List.mem_range]
    constructor
    · rintro ⟨k, hk, rfl⟩
      omega
    · rintro ⟨h1, h2⟩
      exact ⟨(x - 1).toNat, by omega, by omega⟩
  have hfL : ∀ x, 1 ≤ x ∧ x ≤ n → 1 ≤ f x ∧ f x ≤ n := by
    intro x hx
    show 1 ≤ (if x = a then b else if x = b then a else x) ∧
      (if x = a then b else if x = b then a else x) ≤ n
    split_ifs <;> omega
  have hLnd : L.Nodup := by
    apply List.Nodup.map _ (List.nodup_range _)
    intro x y h
    simp only at h
    omega
  have hperm : (L.map f).Perm L := by
    rw [List.perm_ext_iff_of_nodup (hLnd.map hinj) hLnd]
    intro x
    rw [List.mem_map, hL]
    constructor
    · rintro ⟨y, hy, rfl⟩
      exact hfL y ((hL y).1 hy)
    · intro hx
      exact ⟨f x, (hL _).2 (hfL x hx), hff x⟩
  have e1 : segment (swap heap a b) n = (L.map f).map heap := by
    simp only [segment, L, List.map_map]
    apply List.map_congr_left
    intro k _
    exact hf _
  have e2 : segment heap n = L.map heap := by
    simp only [segment, L, List.map_map]
    rfl
  rw [e1, e2]
  exact hperm.map heap

/-- Arithmetic whose exact result is in the `int` range is not affected by `wrap32`. -/
theorem wrap32_eq (x : Int) (h1 : -2147483648 ≤ x) (h2 : x < 2147483648) : wrap32 x = x := by
  unfold wrap32
  omega

/-- C++ truncating division by two moves every index `i` with `i / 2 ≥ 1` strictly
down. -/
theorem tdiv_two_lt (i : Int) (h : 1 ≤ Int.tdiv i 2) : Int.tdiv i 2 < i := by
  by_cases hi : 0 ≤ i
  · rw [Int.tdiv_eq_ediv hi (by omega)] at h ⊢
    omega
  · have h1 := Int.neg_tdiv (-i) 2
    rw [neg_neg] at h1
    have h2 : 0 ≤ Int.tdiv (-i) 2 := Int.tdiv_nonneg (by omega) (by omega)
    omega

/-- The number of iterations of the loop of `createHeap` is below `2^30 - 1` when the
count is below `2^30`. -/
theorem tdiv_two_toNat_lt (n : Int) (hB : n < 1073741824) :
    ((Int.tdiv n 2).toNat : Int) < 1073741823 := by
  by_cases hn : 0 ≤ n
  · rw [Int.tdiv_eq_ediv hn (by omega)]
    omega
  · by_cases h1 : 1 ≤ Int.tdiv n 2
    · have := tdiv_two_lt n h1
      omega
    · omega

/-! ## Facts about `Swaps` -/

theorem Swaps.mono {lo hi lo1 hi1 : Int} {heap heap1 : Int → Int}
    (h : Swaps lo hi heap heap1) (hlo : lo1 ≤ lo) (hhi : hi ≤ hi1) :
    Swaps lo1 hi1 heap heap1 := by
  induction h with
  | refl heap => exact Swaps.refl _
  | step a b h1 h2 h3 h4 _ ih =>
    exact Swaps.step a b (by omega) (by omega) (by omega) (by omega) ih

theorem Swaps.trans {lo hi : Int} {heap heap1 heap2 : Int → Int}
    (h : Swaps lo hi heap heap1) (h1 : Swaps lo hi heap1 heap2) : Swaps lo hi heap heap2 := by
  induction h with
  | refl heap => exact h1
  | step a b g1 g2 g3 g4 _ ih => exact Swaps.step a b g1 g2 g3 g4 (ih h1)

theorem Swaps.frame {lo hi : Int} {heap heap1 : Int → Int} (h : Swaps lo hi heap heap1)
    (k : Int) (hk : k < lo ∨ hi < k) : heap1 k = heap k := by
  induction h with
  | refl heap => rfl
  | step a b h1 h2 h3 h4 _ ih =>
    rw [ih, swap_other _ _ _ _ (by omega) (by omega)]

theorem Swaps.mem {lo hi : Int} {heap heap1 : Int → Int} (h : Swaps lo hi heap heap1)
    (k : Int) (hk1 : lo ≤ k) (hk2 : k ≤ hi) : ∃ m, lo ≤ m ∧ m ≤ hi ∧ heap1 k = heap m := by
  induction h with
  | refl heap => exact ⟨k, hk1, hk2, rfl⟩
  | step a b h1 h2 h3 h4 _ ih =>
    obtain ⟨m, hm1, hm2, e⟩ := ih
    by_cases hma : m = a
    · exact ⟨b, h3, h4, by rw [e, hma, swap_left]⟩
    · by_cases hmb : m = b
      · exact ⟨a, h1, h2, by rw [e, hmb, swap_right]⟩
      · exact ⟨m, hm1, hm2, by rw [e, swap_other _ _ _ _ hma hmb]⟩

theorem Swaps.perm {lo hi : Int} {heap heap1 : Int → Int} (h : Swaps lo hi heap heap1)
    (n : Int) (hlo : 1 ≤ lo) (hhi : hi ≤ n) : (segment heap1 n).Perm (segment heap n) := by
  induction h with
  | refl heap => exact List.Perm.refl _
  | step a b h1 h2 h3 h4 _ ih =>
    exact ih.trans (segment_swap_perm _ n a b (by omega) (by omega) (by omega) (by omega))

/-! ## The sift-down loop -/

/-- One evaluation of the loop of `downAdjust`: the child `c` that the loop compares
with the cursor is the right child exactly when it is in range and strictly larger. -/
theorem downAdjustLoop_succ_raw (fuel : Nat) (heap : Int → Int) (i j high : Int) :
    ∃ c, (c = j ∨ c = j + 1) ∧ (j ≤ high → c ≤ high) ∧
      (c = j + 1 ↔ (j + 1 ≤ high ∧ heap (j + 1) > heap j)) ∧
      (∀ d, (d = j ∨ d = j + 1) → d ≤ high → heap d ≤ heap c) ∧
      downAdjustLoop (fuel + 1) heap i j high =
        if j ≤ high then
          if heap c > heap i then
            downAdjustLoop fuel (swap heap i c) c (wrap32 (2 * c)) high
          else some heap
        else some heap := by
  by_cases h : j + 1 ≤ high ∧ heap (j + 1) > heap j
  · refine ⟨j + 1, Or.inr rfl, fun _ => h.1, ⟨fun _ => h, fun _ => rfl⟩, ?_, ?_⟩
    · rintro d (rfl | rfl) _
      · exact le_of_lt h.2
      · exact le_refl _
    · simp only [downAdjustLoop, h, and_self, if_true]
  · refine ⟨j, Or.inl rfl, fun hj => hj, ⟨fun e => by omega, fun h1 => absurd h1 h⟩, ?_, ?_⟩
    · rintro d (rfl | rfl) hd
      · exact le_refl _
      · by_contra hlt
        exact h ⟨hd, not_le.1 hlt⟩
    · simp only [downAdjustLoop, h, if_false]

/-- One evaluation of the loop of `downAdjust` when the child index is not negative and
`high` is below `2^30`: the doubling of the new cursor does not leave the `int` range. -/
theorem downAdjustLoop_succ (fuel : Nat) (heap : Int → Int) (i j high : Int)
    (hj0 : 0 ≤ j) (hB : high < 1073741824) :
    ∃ c, (c = j ∨ c = j + 1) ∧ (j ≤ high → c ≤ high) ∧
      (c = j + 1 ↔ (j + 1 ≤ high ∧ heap (j + 1) > heap j)) ∧
      (∀ d, (d = j ∨ d = j + 1) → d ≤ high → heap d ≤ heap c) ∧
      downAdjustLoop (fuel + 1) heap i j high =
        if j ≤ high then
          if heap c > heap i then downAdjustLoop fuel (swap heap i c) c (2 * c) high
          else some heap
        else some heap := by
  obtain ⟨c, hc1, hc2, hc3, hc4, e⟩ := downAdjustLoop_succ_raw fuel heap i j high
  refine ⟨c, hc1, hc2, hc3, hc4, ?_⟩
  rw [e]
  by_cases hj : j ≤ high
  · have hch := hc2 hj
    rw [if_pos hj, if_pos hj, wrap32_eq (2 * c) (by omega) (by omega)]
  · rw [if_neg hj, if_neg hj]

/-- The procedure `downAdjust(low, high)` when the doubling of `low` does not leave the
`int` range. -/
theorem downAdjust_eq (heap : Int → Int) (low high : Int)
    (h0 : 0 ≤ low) (h1 : low < 1073741824) :
    downAdjust heap low high =
      downAdjustLoop ((high - low).toNat + 2) heap low (2 * low) high := by
  unfold downAdjust
  rw [wrap32_eq (2 * low) (by omega) (by omega)]

/-- The loop of `downAdjust` returns, and its result arises by swaps inside
`[i, high]`, whenever the cursor is not negative. -/
theorem downAdjustLoop_swaps (high : Int) (hB : high < 1073741824) :
    ∀ (fuel : Nat) (heap : Int → Int) (i : Int), 0 ≤ i → (high - i).toNat + 2 ≤ fuel →
      ∃ heap1, downAdjustLoop fuel heap i (2 * i) high = some heap1 ∧
        Swaps i high heap heap1 := by
  intro fuel
  induction fuel with
  | zero =>
    intro heap i _ hf
    omega
  | succ f ih =>
    intro heap i hi hf
    obtain ⟨c, hc1, hc2, -, -, e⟩ :=
      downAdjustLoop_succ f heap i (2 * i) high (by omega) hB
    rw [e]
    by_cases hj : 2 * i ≤ high
    · by_cases hgt : heap c > heap i
      · have hne : c ≠ i := fun h => by
          rw [h] at hgt
          exact lt_irrefl _ hgt
        have hch := hc2 hj
        obtain ⟨heap1, e1, s1⟩ := ih (swap heap i c) c (by omega) (by omega)
        refine ⟨heap1, by simp only [hj, hgt, if_true]; exact e1, ?_⟩
        exact Swaps.step i c (le_refl _) (by omega) (by omega) hch (s1.mono (by omega) (le_refl _))
      · exact ⟨heap, by simp only [hj, hgt, if_true, if_false], Swaps.refl _⟩
    · exact ⟨heap, by simp only [hj, if_false], Swaps.refl _⟩

/-- The loop of `downAdjust` restores the max-heap property of `[low, high]` when the
cursor `i` is the only node that may be smaller than a child, and the parent of `i`,
if it is in the range, is at least as large as the children of `i`. -/
theorem downAdjustLoop_heap (low high : Int) (hlow : 1 ≤ low) (hB : high < 1073741824) :
    ∀ (fuel : Nat) (heap heap1 : Int → Int) (i : Int), low ≤ i →
      downAdjustLoop fuel heap i (2 * i) high = some heap1 →
      (∀ p, low ≤ p → p ≤ high → p ≠ i →
        ∀ c, (c = 2 * p ∨ c = 2 * p + 1) → c ≤ high → heap p ≥ heap c) →
      (∀ p, low ≤ p → (i = 2 * p ∨ i = 2 * p + 1) →
        ∀ c, (c = 2 * i ∨ c = 2 * i + 1) → c ≤ high → heap p ≥ heap c) →
      MaxHeapOn heap1 low high := by
  intro fuel
  induction fuel with
  | zero =>
    intro heap heap1 i _ e
    simp [downAdjustLoop] at e
  | succ f ih =>
    intro heap heap1 i hi e inv1 inv2
    obtain ⟨c, hc1, hc2, -, hmax, e1⟩ :=
      downAdjustLoop_succ f heap i (2 * i) high (by omega) hB
    rw [e1] at e
    by_cases hj : 2 * i ≤ high
    · have hch := hc2 hj
      by_cases hgt : heap c > heap i
      · simp only [hj, hgt, if_true] at e
        apply ih (swap heap i c) heap1 c (by omega) e
        · intro p hp1 hp2 hpc q hq hqh
          by_cases hpi : p = i
          · subst hpi
            rw [swap_left]
            by_cases hqc : q = c
            · rw [hqc, swap_right]
              exact le_of_lt hgt
            · rw [swap_other _ _ _ _ (by omega) hqc]
              exact hmax q hq hqh
          · rw [swap_other _ _ _ _ hpi hpc]
            by_cases hqi : q = i
            · rw [hqi, swap_left]
              exact inv2 p hp1 (by omega) c (by omega) hch
            · rw [swap_other _ _ _ _ hqi (by omega)]
              exact inv1 p hp1 hp2 hpi q hq hqh
        · intro p hp1 hp q hq hqh
          have hpi : p = i := by omega
          subst hpi
          rw [swap_left, swap_other _ _ _ _ (by omega) (by omega)]
          exact inv1 c (by omega) hch (by omega) q hq hqh
      · simp only [hj, hgt, if_true, if_false, Option.some.injEq] at e
        subst e
        intro p hp1 hp2 q hq hqh
        by_cases hpi : p = i
        · subst hpi
          exact le_trans (hmax q hq hqh) (not_lt.1 hgt)
        · exact inv1 p hp1 hp2 hpi q hq hqh
    · simp only [hj, if_false, Option.some.injEq] at e
      subst e
      intro p hp1 hp2 q hq hqh
      by_cases hpi : p = i
      · subst hpi
        omega
      · exact inv1 p hp1 hp2 hpi q hq hqh

/-- Specification of `downAdjust(low, high)` for `1 ≤ low`, with `low` and `high` below
`2^30`. -/
theorem downAdjust_spec (heap : Int → Int) (low high : Int) (hlow : 1 ≤ low)
    (hL : low < 1073741824) (hB : high < 1073741824) :
    ∃ heap1, downAdjust heap low high = some heap1 ∧ Swaps low high heap heap1 ∧
      ((∀ p, low < p → p ≤ high →
          ∀ c, (c = 2 * p ∨ c = 2 * p + 1) → c ≤ high → heap p ≥ heap c) →
        MaxHeapOn heap1 low high) := by
  obtain ⟨heap1, e, sw⟩ :=
    downAdjustLoop_swaps high hB ((high - low).toNat + 2) heap low (by omega) (le_refl _)
  refine ⟨heap1, by rw [downAdjust_eq heap low high (by omega) hL]; exact e, sw, fun pre => ?_⟩
  apply downAdjustLoop_heap low high hlow hB _ heap heap1 low (le_refl _) e
  · intro p hp1 hp2 hne
    exact pre p (by omega) hp2
  · intro p hp1 hp
    omega

/-! ## The sift-up loop -/

/-- The loop of `upAdjust` returns, and its result arises by swaps inside `[low, i]`,
whenever the cursor is not negative. -/
theorem upAdjustLoop_swaps (low : Int) :
    ∀ (fuel : Nat) (heap : Int → Int) (i : Int), 0 ≤ i → i.natAbs + 2 ≤ fuel →
      ∃ heap1, upAdjustLoop fuel heap low i (Int.tdiv i 2) = some heap1 ∧
        Swaps low i heap heap1 := by
  intro fuel
  induction fuel with
  | zero =>
    intro heap i _ hf
    omega
  | succ f ih =>
    intro heap i hi hf
    have hdiv : Int.tdiv i 2 = i / 2 := Int.tdiv_eq_ediv hi (by omega)
    rw [hdiv]
    unfold upAdjustLoop
    by_cases hj : i / 2 ≥ low
    · by_cases hgt : heap i > heap (i / 2)
      · have hne : i / 2 ≠ i := fun h => by
          rw [h] at hgt
          exact lt_irrefl _ hgt
        obtain ⟨heap1, e1, s1⟩ := ih (swap heap i (i / 2)) (i / 2) (by omega) (by omega)
        refine ⟨heap1, by simp only [hj, hgt, if_true]; exact e1, ?_⟩
        exact Swaps.step i (i / 2) (by omega) (le_refl _) hj (by omega)
          (s1.mono (le_refl _) (by omega))
      · exact ⟨heap, by simp only [hj, hgt, if_true, if_false], Swaps.refl _⟩
    · exact ⟨heap, by simp only [hj, if_false], Swaps.refl _⟩

/-- The loop of `upAdjust`, run with `low = 1`, restores the order between every node
of `[2, high]` and its parent when the cursor `i` is the only node that may be larger
than its parent, and the grandparent of every child of `i` is at least as large as
that child. -/
theorem upAdjustLoop_heap (high : Int) :
    ∀ (fuel : Nat) (heap heap1 : Int → Int) (i : Int), 1 ≤ i → i ≤ high →
      upAdjustLoop fuel heap 1 i (Int.tdiv i 2) = some heap1 →
      (∀ k, 2 ≤ k → k ≤ high → k ≠ i → heap (k / 2) ≥ heap k) →
      (∀ k, 2 ≤ k → k ≤ high → k / 2 = i → 2 ≤ i → heap (i / 2) ≥ heap k) →
      ∀ k, 2 ≤ k → k ≤ high → heap1 (k / 2) ≥ heap1 k := by
  intro fuel
  induction fuel with
  | zero =>
    intro heap heap1 i _ _ e
    simp [upAdjustLoop] at e
  | succ f ih =>
    intro heap heap1 i hi1 hi2 e inv1 inv2
    have hdiv : Int.tdiv i 2 = i / 2 := Int.tdiv_eq_ediv (by omega) (by omega)
    rw [hdiv] at e
    unfold upAdjustLoop at e
    by_cases hj : i / 2 ≥ 1
    · by_cases hgt : heap i > heap (i / 2)
      · simp only [hj, hgt, if_true] at e
        apply ih (swap heap i (i / 2)) heap1 (i / 2) hj (by omega) e
        · intro k hk1 hk2 hkj
          by_cases hki : k = i
          · subst hki
            rw [swap_left, swap_right]
            exact le_of_lt hgt
          · rw [swap_other _ _ _ k hki hkj]
            by_cases hpi : k / 2 = i
            · rw [hpi, swap_left]
              exact inv2 k hk1 hk2 hpi (by omega)
            · by_cases hpj : k / 2 = i / 2
              · rw [hpj, swap_right]
                have := inv1 k hk1 hk2 hki
                rw [hpj] at this
                exact le_trans this (le_of_lt hgt)
              · rw [swap_other _ _ _ _ hpi hpj]
                exact inv1 k hk1 hk2 hki
        · intro k hk1 hk2 hkp hj2
          rw [swap_other _ _ _ (i / 2 / 2) (by omega) (by omega)]
          have hjp := inv1 (i / 2) hj2 (by omega) (by omega)
          by_cases hki : k = i
          · rw [hki, swap_left]
            exact hjp
          · rw [swap_other _ _ _ k hki (by omega)]
            have := inv1 k hk1 hk2 hki
            rw [hkp] at this
            exact le_trans this hjp
      · simp only [hj, hgt, if_true, if_false, Option.some.injEq] at e
        subst e
        intro k hk1 hk2
        by_cases hki : k = i
        · subst hki
          exact not_lt.1 hgt
        · exact inv1 k hk1 hk2 hki
    · simp only [hj, if_false, Option.some.injEq] at e
      subst e
      intro k hk1 hk2
      exact inv1 k hk1 hk2 (by omega)

/-! ## The two formulations of the max-heap property -/

theorem MaxHeapOn.parent {heap : Int → Int} {high : Int} (h : MaxHeapOn heap 1 high)
    (k : Int) (hk1 : 2 ≤ k) (hk2 : k ≤ high) : heap (k / 2) ≥ heap k :=
  h (k / 2) (by omega) (by omega) k (by omega) hk2

theorem MaxHeapOn.of_parent {heap : Int → Int} {high : Int}
    (h : ∀ k, 2 ≤ k → k ≤ high → heap (k / 2) ≥ heap k) : MaxHeapOn heap 1 high := by
  intro p hp1 hp2 c hc hch
  have e : c / 2 = p := by omega
  have := h c (by omega) hch
  rwa [e] at this

theorem InSubtree.le {i k : Int} (hs : InSubtree i k) (hi : 1 ≤ i) : i ≤ k := by
  induction hs with
  | root => exact le_refl _
  | left _ ih => omega
  | right _ ih => omega

/-- In a max-heap a node is at least as large as every node of its subtree. -/
theorem MaxHeapOn.subtree {heap : Int → Int} {n : Int} (h : MaxHeapOn heap 1 n)
    (i : Int) (hi : 1 ≤ i) (k : Int) (hs : InSubtree i k) (hk : k ≤ n) :
    heap k ≤ heap i := by
  induction hs with
  | root => exact le_refl _
  | @left k hs1 ih =>
    have h1 := hs1.le hi
    exact le_trans (h k (by omega) (by omega) _ (Or.inl rfl) hk) (ih (by omega))
  | @right k hs1 ih =>
    have h1 := hs1.le hi
    exact le_trans (h k (by omega) (by omega) _ (Or.inr rfl) hk) (ih (by omega))

/-- Every positive index lies in the subtree of the root `1`. -/
theorem inSubtree_one : ∀ (m : Nat) (k : Int), 1 ≤ k → k.toNat ≤ m → InSubtree 1 k := by
  intro m
  induction m with
  | zero =>
    intro k h1 h2
    omega
  | succ m ih =>
    intro k h1 h2
    by_cases hk : k = 1
    · rw [hk]
      exact InSubtree.root
    · have hp := ih (k / 2) (by omega) (by omega)
      rcases Int.emod_two_eq_zero_or_one k with h0 | h0
      · have e : k = 2 * (k / 2) := by omega
        rw [e]
        exact InSubtree.left hp
      · have e : k = 2 * (k / 2) + 1 := by omega
        rw [e]
        exact InSubtree.right hp

/-- The root of a max-heap is at least as large as every element. -/
theorem MaxHeapOn.root_max {heap : Int → Int} {n : Int} (h : MaxHeapOn heap 1 n)
    (k : Int) (hk1 : 1 ≤ k) (hk2 : k ≤ n) : heap k ≤ heap 1 :=
  h.subtree 1 (le_refl _) k (inSubtree_one k.toNat k hk1 (le_refl _)) hk2

/-- Specification of `upAdjust(1, high)` for `0 ≤ high`. -/
theorem upAdjust_spec (heap : Int → Int) (high : Int) (hhigh : 0 ≤ high) :
    ∃ heap1, upAdjust heap 1 high = some heap1 ∧ Swaps 1 high heap heap1 ∧
      (1 ≤ high → (∀ k, 2 ≤ k → k ≤ high → k ≠ high → heap (k / 2) ≥ heap k) →
        ∀ k, 2 ≤ k → k ≤ high → heap1 (k / 2) ≥ heap1 k) := by
  obtain ⟨heap1, e, sw⟩ := upAdjustLoop_swaps 1 (high.natAbs + 2) heap high hhigh (le_refl _)
  refine ⟨heap1, e, sw, fun h1 pre => ?_⟩
  apply upAdjustLoop_heap high _ heap heap1 high h1 (le_refl _) e pre
  intro k hk1 hk2 hk
  omega

/-! ## Heap construction -/

theorem createHeapLoop_spec (n : Int) (hB : n < 1073741824) :
    ∀ (k : Nat) (heap : Int → Int), (k : Int) < 1073741823 →
      MaxHeapOn heap ((k : Int) + 1) n →
      ∃ heap1, createHeapLoop k heap n = some heap1 ∧ Swaps 1 n heap heap1 ∧
        MaxHeapOn heap1 1 n := by
  intro k
  induction k with
  | zero =>
    intro heap _ h
    exact ⟨heap, rfl, Swaps.refl _, by simpa using h⟩
  | succ k ih =>
    intro heap hk h
    obtain ⟨heap1, e1, sw1, hp1⟩ :=
      downAdjust_spec heap ((k : Int) + 1) n (by omega) (by omega) hB
    have h1 : MaxHeapOn heap1 ((k : Int) + 1) n := by
      apply hp1
      intro p hp hpn c hc hcn
      exact h p (by push_cast; omega) hpn c hc hcn
    obtain ⟨heap2, e2, sw2, hp2⟩ := ih heap1 (by omega) h1
    refine ⟨heap2, ?_, (sw1.mono (by omega) (le_refl _)).trans sw2, hp2⟩
    simp only [createHeapLoop, e1, Option.some_bind, e2]

/-- Specification of `createHeap()`: it returns, keeps the count, permutes `heap[1..n]`
by swaps and establishes the max-heap property. -/
theorem createHeap_spec (s : HeapState) (hB : s.n < 1073741824) :
    ∃ s1, createHeap s = some s1 ∧ s1.n = s.n ∧ Swaps 1 s.n s.heap s1.heap ∧
      MaxHeapOn s1.heap 1 s.n := by
  have h0 : MaxHeapOn s.heap (((Int.tdiv s.n 2).toNat : Int) + 1) s.n := by
    intro p hp1 hp2 c hc hcn
    by_cases hn : 0 ≤ s.n
    · rw [Int.tdiv_eq_ediv hn (by omega)] at hp1
      omega
    · omega
  obtain ⟨heap1, e, sw, hp⟩ :=
    createHeapLoop_spec s.n hB _ s.heap (tdiv_two_toNat_lt s.n hB) h0
  exact ⟨⟨heap1, s.n⟩, by simp only [createHeap, e, Option.map_some'], rfl, sw, hp⟩

/-! ## Heap sort -/

theorem heapSortLoop_spec (n : Int) (hB : n < 1073741824) :
    ∀ (k : Nat) (heap : Int → Int), (k = 0 ∨ (k : Int) + 1 ≤ n) →
      MaxHeapOn heap 1 ((k : Int) + 1) →
      (∀ a b, 1 ≤ a → a ≤ b → b ≤ n → (k : Int) + 1 < b → heap a ≤ heap b) →
      ∃ heap1, heapSortLoop k heap = some heap1 ∧ Swaps 1 n heap heap1 ∧
        ∀ a, 1 ≤ a → a < n → heap1 a ≤ heap1 (a + 1) := by
  intro k
  induction k with
  | zero =>
    intro heap _ _ inv
    exact ⟨heap, rfl, Swaps.refl _, fun a h1 h2 => inv a (a + 1) h1 (by omega) (by omega)
      (by simp only [Nat.cast_zero]; omega)⟩
  | succ k ih =>
    intro heap hk hp inv
    have hkn : (k : Int) + 2 ≤ n := by omega
    have hp2 : MaxHeapOn heap 1 ((k : Int) + 2) := by
      intro p h1 h2 c hc hcn
      exact hp p h1 (by push_cast; omega) c hc (by push_cast; omega)
    have inv2 : ∀ a b, 1 ≤ a → a ≤ b → b ≤ n → (k : Int) + 2 < b → heap a ≤ heap b := by
      intro a b h1 h2 h3 h4
      exact inv a b h1 h2 h3 (by push_cast; omega)
    obtain ⟨heap1, e1, sw1, hp1⟩ :=
      downAdjust_spec (swap heap ((k : Int) + 2) 1) 1 ((k : Int) + 1) (le_refl _)
        (by omega) (by omega)
    have sw : Swaps 1 ((k : Int) + 2) heap heap1 :=
      Swaps.step ((k : Int) + 2) 1 (by omega) (le_refl _) (le_refl _) (by omega)
        (sw1.mono (le_refl _) (by omega))
    have hlast : heap1 ((k : Int) + 2) = heap 1 := by
      rw [sw1.frame _ (Or.inr (by omega)), swap_left]
    have hsmall : ∀ a, 1 ≤ a → a ≤ (k : Int) + 2 → heap1 a ≤ heap 1 := by
      intro a h1 h2
      obtain ⟨m, hm1, hm2, e⟩ := sw.mem a h1 h2
      rw [e]
      exact hp2.root_max m hm1 hm2
    have hbig : ∀ b, (k : Int) + 2 < b → heap1 b = heap b := by
      intro b hb
      exact sw.frame b (Or.inr hb)
    obtain ⟨heap2, e2, sw2, hs⟩ := ih heap1 (Or.inr (by omega))
      (by
        apply hp1
        intro p h1 h2 c hc hcn
        rw [swap_other _ _ _ p (by omega) (by omega), swap_other _ _ _ c (by omega) (by omega)]
        exact hp2 p (by omega) (by omega) c hc (by omega))
      (by
        intro a b h1 h2 h3 h4
        by_cases hb : b = (k : Int) + 2
        · rw [hb, hlast]
          exact hsmall a h1 (by omega)
        · rw [hbig b (by omega)]
          by_cases ha : a ≤ (k : Int) + 2
          · obtain ⟨m, hm1, hm2, e⟩ := sw.mem a h1 ha
            rw [e]
            exact inv2 m b hm1 (by omega) h3 (by omega)
          · rw [hbig a (by omega)]
            exact inv2 a b h1 h2 h3 (by omega))
    refine ⟨heap2, ?_, (sw.mono (le_refl _) hkn).trans sw2, hs⟩
    simp only [heapSortLoop, e1, Option.some_bind, e2]

/-- Specification of `heapSort()`: it returns, keeps the count, permutes `heap[1..n]`
by swaps and leaves the segment in non-decreasing order. -/
theorem heapSort_spec (s : HeapState) (hB : s.n < 1073741824) :
    ∃ s1, heapSort s = some s1 ∧ s1.n = s.n ∧ Swaps 1 s.n s.heap s1.heap ∧
      ∀ a, 1 ≤ a → a < s.n → s1.heap a ≤ s1.heap (a + 1) := by
  obtain ⟨s0, e0, hn0, sw0, hp0⟩ := createHeap_spec s hB
  obtain ⟨heap1, e1, sw1, hs⟩ := heapSortLoop_spec s.n hB (s.n - 1).toNat s0.heap (by omega)
    (by
      intro p h1 h2 c hc hcn
      by_cases hn : 1 ≤ s.n
      · exact hp0 p h1 (by omega) c hc (by omega)
      · omega)
    (by
      intro a b h1 h2 h3 h4
      omega)
  refine ⟨⟨heap1, s.n⟩, ?_, rfl, sw0.trans sw1, hs⟩
  simp only [heapSort, e0, Option.some_bind, hn0, e1, Option.map_some']

/-! ## Removal of the top, insertion, and draining a heap -/

/-- Specification of `deleteTop()` on a non-empty max-heap. -/
theorem deleteTop_spec (s : HeapState) (hn : 1 ≤ s.n) (hB : s.n < 1073741824)
    (hh : MaxHeapOn s.heap 1 s.n) :
    ∃ s1, deleteTop s = some s1 ∧ s1.n = s.n - 1 ∧ MaxHeapOn s1.heap 1 (s.n - 1) ∧
      (s.heap 1 :: segment s1.heap (s.n - 1)).Perm (segment s.heap s.n) := by
  obtain ⟨heap1, e, sw, hp⟩ :=
    downAdjust_spec (store s.heap 1 (s.heap s.n)) 1 (s.n - 1) (le_refl _) (by omega) (by omega)
  refine ⟨⟨heap1, s.n - 1⟩, by simp only [deleteTop, e, Option.map_some'], rfl, ?_, ?_⟩
  · apply hp
    intro p h1 h2 c hc hcn
    rw [store_other _ _ _ p (by omega), store_other _ _ _ c (by omega)]
    exact hh p (by omega) (by omega) c hc (by omega)
  · have e1 : segment (store s.heap 1 (s.heap s.n)) (s.n - 1) =
        segment (swap s.heap 1 s.n) (s.n - 1) := by
      apply segment_congr
      intro k h1 h2
      by_cases hk : k = 1
      · rw [hk, store_same, swap_left]
      · rw [store_other _ _ _ k hk, swap_other _ _ _ k hk (by omega)]
    have e2 : segment (swap s.heap 1 s.n) s.n =
        segment (swap s.heap 1 s.n) (s.n - 1) ++ [s.heap 1] := by
      have := segment_succ (swap s.heap 1 s.n) (s.n - 1) (by omega)
      rw [sub_add_cancel, swap_right] at this
      exact this
    have p1 : (segment heap1 (s.n - 1)).Perm (segment (swap s.heap 1 s.n) (s.n - 1)) := by
      rw [← e1]
      exact sw.perm (s.n - 1) (le_refl _) (le_refl _)
    have p2 := segment_swap_perm s.heap s.n 1 s.n (le_refl _) hn hn (le_refl _)
    rw [e2] at p2
    exact ((p1.cons (s.heap 1)).trans (List.perm_append_singleton _ _).symm).trans p2

/-- Specification of `insert(x)` on a max-heap. -/
theorem insert_spec (s : HeapState) (x : Int) (hn : 0 ≤ s.n) (hh : MaxHeapOn s.heap 1 s.n) :
    ∃ s1, insert s x = some s1 ∧ s1.n = s.n + 1 ∧ MaxHeapOn s1.heap 1 (s.n + 1) ∧
      (segment s1.heap (s.n + 1)).Perm (x :: segment s.heap s.n) := by
  obtain ⟨heap1, e, sw, hp⟩ := upAdjust_spec (store s.heap (s.n + 1) x) (s.n + 1) (by omega)
  refine ⟨⟨heap1, s.n + 1⟩, by simp only [insert, e, Option.map_some'], rfl, ?_, ?_⟩
  · apply MaxHeapOn.of_parent
    apply hp (by omega)
    intro k h1 h2 hk
    rw [store_other _ _ _ k hk, store_other _ _ _ (k / 2) (by omega)]
    exact hh.parent k h1 (by omega)
  · have e1 : segment (store s.heap (s.n + 1) x) (s.n + 1) = segment s.heap s.n ++ [x] := by
      rw [segment_succ _ _ hn, store_same]
      congr 1
      apply segment_congr
      intro k h1 h2
      exact store_other _ _ _ k (by omega)
    have p1 := sw.perm (s.n + 1) (le_refl _) (le_refl _)
    rw [e1] at p1
    exact p1.trans (List.perm_append_singleton _ _)

theorem drain_spec :
    ∀ (k : Nat) (s : HeapState), s.n = k → s.n < 1073741824 → MaxHeapOn s.heap 1 s.n →
      ∃ out s1, drain k s = some (out, s1) ∧ out.Perm (segment s.heap s.n) ∧
        out.Sorted (fun a b => a ≥ b) ∧ s1.n = 0 := by
  intro k
  induction k with
  | zero =>
    intro s hn _ _
    refine ⟨[], s, rfl, ?_, List.sorted_nil, by simpa using hn⟩
    rw [segment_nonpos _ _ (by omega)]
  | succ k ih =>
    intro s hn hB hh
    obtain ⟨s1, e1, hn1, hp1, perm1⟩ := deleteTop_spec s (by omega) hB hh
    rw [← hn1] at hp1 perm1
    obtain ⟨out, s2, e2, perm2, hs, h0⟩ :=
      ih s1 (by rw [hn1, hn]; push_cast; omega) (by omega) hp1
    refine ⟨s.heap 1 :: out, s2, ?_, (perm2.cons _).trans perm1, ?_, h0⟩
    · simp only [drain, e1, Option.some_bind, e2, Option.map_some']
    · rw [List.sorted_cons]
      refine ⟨?_, hs⟩
      · intro b hb
        have hb1 : b ∈ segment s.heap s.n :=
          perm1.subset (List.mem_cons_of_mem _ (perm2.subset hb))
        obtain ⟨m, hm1, hm2, rfl⟩ := (mem_segment _ _ _).1 hb1
        exact hh.root_max m hm1 hm2

/-- Every index or count of at most `maxn - 1` is below `2^30`. -/
theorem maxn_bound {n : Int} (h : n ≤ maxn - 1) : n < 1073741824 := by
  have hmax : maxn = 100 := rfl
  omega

/-- The array `[9, 5, 7]` at positions `1..3` is a max-heap. -/
theorem maxHeapOn_example : MaxHeapOn (ofList [9, 5, 7]).heap 1 (ofList [9, 5, 7]).n := by
  intro p h1 h2 c hc hcn
  have hn : (ofList [9, 5, 7]).n = 3 := rfl
  rw [hn] at h2 hcn
  have hp : p = 1 := by omega
  subst hp
  rcases hc with rfl | rfl <;> decide

/-! ## Heap construction on an array that is already a heap -/

/-- Sifting down a node that is at least as large as its children within `high` returns
the array unchanged. -/
theorem downAdjust_id (heap : Int → Int) (low high : Int)
    (h0 : 0 ≤ low) (hL : low < 1073741824)
    (h : ∀ c, (c = 2 * low ∨ c = 2 * low + 1) → c ≤ high → heap c ≤ heap low) :
    downAdjust heap low high = some heap := by
  rw [downAdjust_eq heap low high h0 hL]
  obtain ⟨c, hc1, hc2, -, -, e⟩ :=
    downAdjustLoop_succ_raw ((high - low).toNat + 1) heap low (2 * low) high
  rw [e]
  by_cases hj : 2 * low ≤ high
  · rw [if_pos hj, if_neg (not_lt.2 (h c hc1 (hc2 hj)))]
  · rw [if_neg hj]

theorem createHeapLoop_id (n : Int) :
    ∀ (k : Nat) (heap : Int → Int), (k : Int) < 1073741823 → MaxHeapOn heap 1 n →
      createHeapLoop k heap n = some heap := by
  intro k
  induction k with
  | zero =>
    intro heap _ _
    rfl
  | succ k ih =>
    intro heap hk h
    have e : downAdjust heap ((k : Int) + 1) n = some heap := by
      apply downAdjust_id heap ((k : Int) + 1) n (by omega) (by omega)
      intro c hc hcn
      exact h ((k : Int) + 1) (by omega) (by omega) c hc hcn
    simp only [createHeapLoop, e, Option.some_bind]
    exact ih heap (by omega) h

theorem createHeap_id (s : HeapState) (hB : s.n < 1073741824)
    (h : MaxHeapOn s.heap 1 s.n) : createHeap s = some s := by
  simp only [createHeap, createHeapLoop_id s.n _ s.heap (tdiv_two_toNat_lt s.n hB) h,
    Option.map_some']

/-- With count `0` or `1` neither loop of `heapSort` runs. -/
theorem heapSort_small (s : HeapState) (h : s.n = 0 ∨ s.n = 1) : heapSort s = some s := by
  obtain ⟨heap, n⟩ := s
  simp only at h
  rcases h with h | h <;> subst h <;> rfl

/-- The procedure `insert(x)` returns for every count `n ≥ 0`, with `x` added to the
segment, whatever the array holds. -/
theorem insert_swaps (s : HeapState) (x : Int) (hn : 0 ≤ s.n) :
    ∃ s1, insert s x = some s1 ∧ s1.n = s.n + 1 ∧
      Swaps 1 (s.n + 1) (store s.heap (s.n + 1) x) s1.heap ∧
      (segment s1.heap (s.n + 1)).Perm (x :: segment s.heap s.n) := by
  obtain ⟨heap1, e, sw, _⟩ := upAdjust_spec (store s.heap (s.n + 1) x) (s.n + 1) (by omega)
  refine ⟨⟨heap1, s.n + 1⟩, by simp only [insert, e, Option.map_some'], rfl, sw, ?_⟩
  have e1 : segment (store s.heap (s.n + 1) x) (s.n + 1) = segment s.heap s.n ++ [x] := by
    rw [segment_succ _ _ hn, store_same]
    congr 1
    apply segment_congr
    intro k h1 h2
    exact store_other _ _ _ k (by omega)
  have p1 := sw.perm (s.n + 1) (le_refl _) (le_refl _)
  rw [e1] at p1
  exact p1.trans (List.perm_append_singleton _ _)

/-! ## Segments that do not start at index `1` -/

theorem swap_shift (heap : Int → Int) (d a b : Int) :
    (fun k => swap heap a b (k + d)) = swap (fun k => heap (k + d)) (a - d) (b - d) := by
  funext k
  simp only [swap, sub_add_cancel]
  split_ifs <;> first | rfl | omega

theorem Swaps.shift {lo hi : Int} {heap heap1 : Int → Int} (h : Swaps lo hi heap heap1)
    (d : Int) : Swaps (lo - d) (hi - d) (fun k => heap (k + d)) (fun k => heap1 (k + d)) := by
  induction h with
  | refl heap => exact Swaps.refl _
  | step a b h1 h2 h3 h4 _ ih =>
    rw [swap_shift] at ih
    exact Swaps.step (a - d) (b - d) (by omega) (by omega) (by omega) (by omega) ih

theorem segmentFrom_eq (heap : Int → Int) (low high : Int) :
    segmentFrom heap low high = segment (fun k => heap (k + (low - 1))) (high - (low - 1)) := by
  unfold segmentFrom segment
  have e : (high + 1 - low).toNat = (high - (low - 1)).toNat := by omega
  rw [e]
  apply List.map_congr_left
  intro k _
  congr 1
  omega

/-- Swaps inside `[lo, hi]` permute the segment `heap[lo..hi]`. -/
theorem Swaps.permFrom {lo hi : Int} {heap heap1 : Int → Int} (h : Swaps lo hi heap heap1) :
    (segmentFrom heap1 lo hi).Perm (segmentFrom heap lo hi) := by
  rw [segmentFrom_eq, segmentFrom_eq]
  exact (h.shift (lo - 1)).perm _ (by omega) (le_refl _)

/-! ## The path of the sift-down loop -/

theorem InSubtree.step_up {i k : Int} (hs : InSubtree i k) : k = i ∨ InSubtree i (k / 2) := by
  cases hs with
  | root => exact Or.inl rfl
  | @left k1 h =>
    have e : 2 * k1 / 2 = k1 := by omega
    rw [e]
    exact Or.inr h
  | @right k1 h =>
    have e : (2 * k1 + 1) / 2 = k1 := by omega
    rw [e]
    exact Or.inr h

theorem InSubtree.of_child {i c k : Int} (hc : c = 2 * i ∨ c = 2 * i + 1)
    (hs : InSubtree c k) : InSubtree i k := by
  induction hs with
  | root =>
    rcases hc with rfl | rfl
    · exact InSubtree.left InSubtree.root
    · exact InSubtree.right InSubtree.root
  | left _ ih => exact InSubtree.left ih
  | right _ ih => exact InSubtree.right ih

/-- The subtrees of the two children of a node share no node. -/
theorem InSubtree.not_sibling {i k : Int} (hi : 1 ≤ i) (hl : InSubtree (2 * i) k) :
    ¬ InSubtree (2 * i + 1) k := by
  induction hl with
  | root =>
    intro h
    have := h.le (by omega)
    omega
  | @left k1 hk ih =>
    intro h
    rcases h.step_up with e | h2
    · omega
    · have e : 2 * k1 / 2 = k1 := by omega
      rw [e] at h2
      exact ih h2
  | @right k1 hk ih =>
    intro h
    rcases h.step_up with e | h2
    · have := hk.le (by omega)
      omega
    · have e : (2 * k1 + 1) / 2 = k1 := by omega
      rw [e] at h2
      exact ih h2

/-- The loop of `downAdjust` changes only nodes of the subtree of its cursor, and the
value it found at the cursor ends at a node of that subtree. -/
theorem downAdjustLoop_path (high : Int) (hB : high < 1073741824) :
    ∀ (fuel : Nat) (heap heap1 : Int → Int) (i : Int), 1 ≤ i →
      downAdjustLoop fuel heap i (2 * i) high = some heap1 →
      (∀ k, ¬ InSubtree i k → heap1 k = heap k) ∧
      ∃ k, InSubtree i k ∧ (k = i ∨ k ≤ high) ∧ heap1 k = heap i := by
  intro fuel
  induction fuel with
  | zero =>
    intro heap heap1 i _ e
    simp [downAdjustLoop] at e
  | succ f ih =>
    intro heap heap1 i hi e
    obtain ⟨c, hc1, hc2, -, -, e1⟩ :=
      downAdjustLoop_succ f heap i (2 * i) high (by omega) hB
    rw [e1] at e
    by_cases hj : 2 * i ≤ high
    · by_cases hgt : heap c > heap i
      · simp only [hj, hgt, if_true] at e
        have hci : InSubtree i c := InSubtree.of_child hc1 InSubtree.root
        obtain ⟨hout, k, hk1, hk2, hk3⟩ := ih (swap heap i c) heap1 c (by omega) e
        refine ⟨fun m hm => ?_, k, InSubtree.of_child hc1 hk1, Or.inr ?_, ?_⟩
        · have hmc : ¬ InSubtree c m := fun h => hm (InSubtree.of_child hc1 h)
          have hmi : m ≠ i := fun h => hm (h ▸ InSubtree.root)
          have hmc2 : m ≠ c := fun h => hm (h ▸ hci)
          rw [hout m hmc, swap_other _ _ _ m hmi hmc2]
        · have := hc2 hj
          rcases hk2 with h | h
          · omega
          · exact h
        · rw [hk3, swap_right]
      · simp only [hj, hgt, if_true, if_false, Option.some.injEq] at e
        subst e
        exact ⟨fun _ _ => rfl, i, InSubtree.root, Or.inl rfl, rfl⟩
    · simp only [hj, if_false, Option.some.injEq] at e
      subst e
      exact ⟨fun _ _ => rfl, i, InSubtree.root, Or.inl rfl, rfl⟩

/-! ## Sorted arrays and the heap property -/

theorem mono_of_consecutive (heap : Int → Int) (n : Int)
    (h : ∀ a, 1 ≤ a → a < n → heap a ≤ heap (a + 1)) :
    ∀ (d : Nat) (a : Int), 1 ≤ a → a + (d : Int) ≤ n → heap a ≤ heap (a + (d : Int)) := by
  intro d
  induction d with
  | zero =>
    intro a _ _
    simp
  | succ d ih =>
    intro a h1 h2
    have e : a + ((d + 1 : Nat) : Int) = a + (d : Int) + 1 := by push_cast; omega
    rw [e]
    exact le_trans (ih a h1 (by omega)) (h (a + (d : Int)) (by omega) (by omega))

/-! ## The access logs -/

theorem downAdjustLoopT_fst :
    ∀ (fuel : Nat) (heap : Int → Int) (i j high : Int),
      (downAdjustLoopT fuel heap i j high).map Prod.fst = downAdjustLoop fuel heap i j high := by
  intro fuel
  induction fuel with
  | zero =>
    intro heap i j high
    rfl
  | succ f ih =>
    intro heap i j high
    simp only [downAdjustLoopT, downAdjustLoop]
    split_ifs <;> simp only [Option.map_some', Option.map_map] <;>
      first
        | rfl
        | (rw [← ih]; rfl)

/-- One evaluation of the logged loop of `downAdjust`: `c` is the child compared with
the cursor and `t1` the log of the comparison of the two children. -/
theorem downAdjustLoopT_succ_raw (fuel : Nat) (heap : Int → Int) (i j high : Int) :
    ∃ (c : Int) (t1 : List Int), (c = j ∨ c = j + 1) ∧ (j ≤ high → c ≤ high) ∧
      (∀ k ∈ t1, (k = j ∨ k = j + 1) ∧ k ≤ high) ∧
      downAdjustLoopT (fuel + 1) heap i j high =
        if j ≤ high then
          if heap c > heap i then
            (downAdjustLoopT fuel (swap heap i c) c (wrap32 (2 * c)) high).map fun r =>
              (r.1, t1 ++ [c, i, i, c] ++ r.2)
          else some (heap, t1 ++ [c, i])
        else some (heap, []) := by
  by_cases h1 : j + 1 ≤ high
  · have ht : ∀ k ∈ [j + 1, j], (k = j ∨ k = j + 1) ∧ k ≤ high := by
      intro k hk
      simp only [List.mem_cons, List.mem_singleton, List.not_mem_nil, or_false] at hk
      rcases hk with rfl | rfl
      · exact ⟨Or.inr rfl, h1⟩
      · exact ⟨Or.inl rfl, by omega⟩
    by_cases h2 : heap (j + 1) > heap j
    · refine ⟨j + 1, [j + 1, j], Or.inr rfl, fun _ => h1, ht, ?_⟩
      simp only [downAdjustLoopT, h1, h2, and_self, if_true]
    · refine ⟨j, [j + 1, j], Or.inl rfl, fun h => h, ht, ?_⟩
      simp only [downAdjustLoopT, h1, h2, and_false, if_true, if_false]
  · refine ⟨j, [], Or.inl rfl, fun h => h, fun k hk => absurd hk (List.not_mem_nil k), ?_⟩
    simp only [downAdjustLoopT, h1, false_and, if_false]

/-- One evaluation of the logged loop of `downAdjust` when the child index is not
negative and `high` is below `2^30`. -/
theorem downAdjustLoopT_succ (fuel : Nat) (heap : Int → Int) (i j high : Int)
    (hj0 : 0 ≤ j) (hB : high < 1073741824) :
    ∃ (c : Int) (t1 : List Int), (c = j ∨ c = j + 1) ∧ (j ≤ high → c ≤ high) ∧
      (∀ k ∈ t1, (k = j ∨ k = j + 1) ∧ k ≤ high) ∧
      downAdjustLoopT (fuel + 1) heap i j high =
        if j ≤ high then
          if heap c > heap i then
            (downAdjustLoopT fuel (swap heap i c) c (2 * c) high).map fun r =>
              (r.1, t1 ++ [c, i, i, c] ++ r.2)
          else some (heap, t1 ++ [c, i])
        else some (heap, []) := by
  obtain ⟨c, t1, hc1, hc2, ht1, e⟩ := downAdjustLoopT_succ_raw fuel heap i j high
  refine ⟨c, t1, hc1, hc2, ht1, ?_⟩
  rw [e]
  by_cases hj : j ≤ high
  · have hch := hc2 hj
    rw [if_pos hj, if_pos hj, wrap32_eq (2 * c) (by omega) (by omega)]
  · rw [if_neg hj, if_neg hj]

/-- Every index in the log of the loop of `downAdjust` lies between the cursor and
`high`. -/
theorem downAdjustLoopT_bounds (high : Int) (hB : high < 1073741824) :
    ∀ (fuel : Nat) (heap : Int → Int) (i : Int) (r : (Int → Int) × List Int), 0 ≤ i →
      downAdjustLoopT fuel heap i (2 * i) high = some r →
      ∀ k ∈ r.2, i ≤ k ∧ k ≤ high := by
  intro fuel
  induction fuel with
  | zero =>
    intro heap i r _ e
    simp [downAdjustLoopT] at e
  | succ f ih =>
    intro heap i r hi e
    obtain ⟨c, t1, hc1, hc2, ht1, e1⟩ :=
      downAdjustLoopT_succ f heap i (2 * i) high (by omega) hB
    rw [e1] at e
    by_cases hj : 2 * i ≤ high
    · have hch := hc2 hj
      have hlocal : ∀ k ∈ t1 ++ [c, i], i ≤ k ∧ k ≤ high := by
        intro k hk
        rw [List.mem_append] at hk
        rcases hk with hk | hk
        · have := ht1 k hk
          omega
        · simp only [List.mem_cons, List.mem_singleton, List.not_mem_nil, or_false] at hk
          omega
      by_cases hgt : heap c > heap i
      · rw [if_pos hj, if_pos hgt] at e
        obtain ⟨r0, e0, rfl⟩ := Option.map_eq_some'.1 e
        have hrec := ih (swap heap i c) c r0 (by omega) e0
        intro k hk
        simp only [List.mem_append] at hk
        rcases hk with (hk | hk) | hk
        · exact hlocal k (List.mem_append_left _ hk)
        · simp only [List.mem_cons, List.mem_singleton, List.not_mem_nil, or_false] at hk
          omega
        · have := hrec k hk
          omega
      · rw [if_pos hj, if_neg hgt, Option.some.injEq] at e
        subst e
        exact hlocal
    · rw [if_neg hj, Option.some.injEq] at e
      subst e
      intro k hk
      exact absurd hk (List.not_mem_nil k)

theorem upAdjustLoopT_fst :
    ∀ (fuel : Nat) (heap : Int → Int) (low i j : Int),
      (upAdjustLoopT fuel heap low i j).map Prod.fst = upAdjustLoop fuel heap low i j := by
  intro fuel
  induction fuel with
  | zero =>
    intro heap low i j
    rfl
  | succ f ih =>
    intro heap low i j
    simp only [upAdjustLoopT, upAdjustLoop]
    split_ifs
    · simp only [Option.map_map]
      rw [← ih]
      rfl
    · rfl
    · rfl

/-- Every index in the log of the loop of `upAdjust` lies between `low` and the cursor,
and is not negative. -/
theorem upAdjustLoopT_bounds0 (low : Int) :
    ∀ (fuel : Nat) (heap : Int → Int) (i : Int) (r : (Int → Int) × List Int), 0 ≤ i →
      upAdjustLoopT fuel heap low i (Int.tdiv i 2) = some r →
      ∀ k ∈ r.2, 0 ≤ k ∧ low ≤ k ∧ k ≤ i := by
  intro fuel
  induction fuel with
  | zero =>
    intro heap i r _ e
    simp [upAdjustLoopT] at e
  | succ f ih =>
    intro heap i r hi e
    have hdiv : Int.tdiv i 2 = i / 2 := Int.tdiv_eq_ediv hi (by omega)
    rw [hdiv] at e
    unfold upAdjustLoopT at e
    by_cases hj : i / 2 ≥ low
    · by_cases hgt : heap i > heap (i / 2)
      · rw [if_pos hj, if_pos hgt] at e
        obtain ⟨r0, e0, rfl⟩ := Option.map_eq_some'.1 e
        have hrec := ih (swap heap i (i / 2)) (i / 2) r0 (by omega) e0
        intro k hk
        rw [List.mem_append] at hk
        rcases hk with hk | hk
        · simp only [List.mem_cons, List.mem_singleton, List.not_mem_nil, or_false] at hk
          omega
        · have := hrec k hk
          omega
      · rw [if_pos hj, if_neg hgt, Option.some.injEq] at e
        subst e
        intro k hk
        simp only [List.mem_cons, List.mem_singleton, List.not_mem_nil, or_false] at hk
        omega
    · rw [if_neg hj, Option.some.injEq] at e
      subst e
      intro k hk
      exact absurd hk (List.not_mem_nil k)

/-- Every index in the log of the loop of `upAdjust`, run with `low = 1`, lies between
`1` and the cursor. -/
theorem upAdjustLoopT_bounds :
    ∀ (fuel : Nat) (heap : Int → Int) (i : Int) (r : (Int → Int) × List Int), 0 ≤ i →
      upAdjustLoopT fuel heap 1 i (Int.tdiv i 2) = some r →
      ∀ k ∈ r.2, 1 ≤ k ∧ k ≤ i := by
  intro fuel heap i r hi e k hk
  have := upAdjustLoopT_bounds0 1 fuel heap i r hi e k hk
  omega

theorem downAdjustT_eq (heap : Int → Int) (low high : Int)
    (h0 : 0 ≤ low) (h1 : low < 1073741824) :
    downAdjustT heap low high =
      downAdjustLoopT ((high - low).toNat + 2) heap low (2 * low) high := by
  unfold downAdjustT
  rw [wrap32_eq (2 * low) (by omega) (by omega)]

/-- The logged `downAdjust(low, high)` returns for `0 ≤ low`, returns the result of
`downAdjust` itself, and touches only indices of `[low, high]`. -/
theorem downAdjustT_spec0 (heap : Int → Int) (low high : Int) (hlow : 0 ≤ low)
    (hL : low < 1073741824) (hB : high < 1073741824) :
    ∃ r, downAdjustT heap low high = some r ∧ downAdjust heap low high = some r.1 ∧
      ∀ k ∈ r.2, low ≤ k ∧ k ≤ high := by
  obtain ⟨heap1, e, _⟩ :=
    downAdjustLoop_swaps high hB ((high - low).toNat + 2) heap low hlow (le_refl _)
  have hf := downAdjustLoopT_fst ((high - low).toNat + 2) heap low (2 * low) high
  rw [e] at hf
  obtain ⟨r, er, hr⟩ := Option.map_eq_some'.1 hf
  refine ⟨r, ?_, ?_, downAdjustLoopT_bounds high hB _ heap low r hlow er⟩
  · rw [downAdjustT_eq heap low high hlow hL]
    exact er
  · rw [downAdjust_eq heap low high hlow hL, e, hr]

theorem downAdjustT_spec (heap : Int → Int) (low high : Int) (hlow : 1 ≤ low)
    (hL : low < 1073741824) (hB : high < 1073741824) :
    ∃ r, downAdjustT heap low high = some r ∧ downAdjust heap low high = some r.1 ∧
      ∀ k ∈ r.2, low ≤ k ∧ k ≤ high :=
  downAdjustT_spec0 heap low high (by omega) hL hB

theorem upAdjustT_spec (heap : Int → Int) (high : Int) (hhigh : 0 ≤ high) :
    ∃ r, upAdjustT heap 1 high = some r ∧ upAdjust heap 1 high = some r.1 ∧
      ∀ k ∈ r.2, 1 ≤ k ∧ k ≤ high := by
  obtain ⟨heap1, e, _⟩ := upAdjust_spec heap high hhigh
  have hf := upAdjustLoopT_fst (high.natAbs + 2) heap 1 high (Int.tdiv high 2)
  unfold upAdjust at e
  rw [e] at hf
  obtain ⟨r, er, hr⟩ := Option.map_eq_some'.1 hf
  refine ⟨r, er, ?_, upAdjustLoopT_bounds _ heap high r hhigh er⟩
  unfold upAdjust
  rw [e, hr]

/-- The logged `upAdjust(low, high)` returns for `0 ≤ high` and every `low`, returns the
result of `upAdjust` itself, and touches only indices of `[max low 0, high]`. -/
theorem upAdjustT_spec0 (heap : Int → Int) (low high : Int) (hhigh : 0 ≤ high) :
    ∃ r, upAdjustT heap low high = some r ∧ upAdjust heap low high = some r.1 ∧
      ∀ k ∈ r.2, 0 ≤ k ∧ low ≤ k ∧ k ≤ high := by
  obtain ⟨heap1, e, _⟩ := upAdjustLoop_swaps low (high.natAbs + 2) heap high hhigh (le_refl _)
  have hf := upAdjustLoopT_fst (high.natAbs + 2) heap low high (Int.tdiv high 2)
  rw [e] at hf
  obtain ⟨r, er, hr⟩ := Option.map_eq_some'.1 hf
  refine ⟨r, er, ?_, upAdjustLoopT_bounds0 low _ heap high r hhigh er⟩
  unfold upAdjust
  rw [e, hr]

/-- A logged run whose log holds an index outside `0 .. maxn - 1` does not complete. -/
theorem not_completes_of_mem {α : Type} {r : Option (α × List Int)} {a : α} {t : List Int}
    (e : r = some (a, t)) (k : Int) (hk : k ∈ t) (hb : ¬ (0 ≤ k ∧ k < maxn)) :
    ¬ Completes r := by
  rintro ⟨a1, t1, e1, h⟩
  rw [e] at e1
  simp only [Option.some.injEq, Prod.mk.injEq] at e1
  obtain ⟨_, rfl⟩ := e1
  exact hb (h k hk)

/-- The first array access of `insert(x)` is the store at index `n + 1`. -/
theorem insertT_first (s : HeapState) (x : Int) (hn : 0 ≤ s.n) :
    ∃ r t, insertT s x = some r ∧ r.2 = (s.n + 1) :: t := by
  obtain ⟨r1, e1, _, _⟩ := upAdjustT_spec0 (store s.heap (s.n + 1) x) 1 (s.n + 1) (by omega)
  exact ⟨(⟨r1.1, s.n + 1⟩, [s.n + 1] ++ r1.2), r1.2,
    by simp only [insertT, e1, Option.map_some'], rfl⟩

theorem createHeapLoopT_spec (n : Int) (hB : n < 1073741824) :
    ∀ (k : Nat) (heap : Int → Int), (k : Int) < 1073741823 →
      ∃ r, createHeapLoopT k heap n = some r ∧ createHeapLoop k heap n = some r.1 ∧
        ∀ x ∈ r.2, 1 ≤ x ∧ x ≤ n := by
  intro k
  induction k with
  | zero =>
    intro heap _
    exact ⟨(heap, []), rfl, rfl, fun x hx => absurd hx (List.not_mem_nil x)⟩
  | succ k ih =>
    intro heap hk
    obtain ⟨r1, e1, p1, b1⟩ :=
      downAdjustT_spec heap ((k : Int) + 1) n (by omega) (by omega) hB
    obtain ⟨r2, e2, p2, b2⟩ := ih r1.1 (by omega)
    refine ⟨(r2.1, r1.2 ++ r2.2), ?_, ?_, ?_⟩
    · simp only [createHeapLoopT, e1, Option.some_bind, e2, Option.map_some']
    · simp only [createHeapLoop, p1, Option.some_bind, p2]
    · intro x hx
      rw [List.mem_append] at hx
      rcases hx with hx | hx
      · have := b1 x hx
        omega
      · exact b2 x hx

theorem createHeapT_spec (s : HeapState) (hB : s.n < 1073741824) :
    ∃ r, createHeapT s = some r ∧ createHeap s = some r.1 ∧ r.1.n = s.n ∧
      ∀ x ∈ r.2, 1 ≤ x ∧ x ≤ s.n := by
  obtain ⟨r, e, p, b⟩ :=
    createHeapLoopT_spec s.n hB (Int.tdiv s.n 2).toNat s.heap (tdiv_two_toNat_lt s.n hB)
  refine ⟨(⟨r.1, s.n⟩, r.2), ?_, ?_, rfl, b⟩
  · simp only [createHeapT, e, Option.map_some']
  · simp only [createHeap, p, Option.map_some']

theorem heapSortLoopT_spec (n : Int) (hB : n < 1073741824) :
    ∀ (k : Nat) (heap : Int → Int), (k = 0 ∨ (k : Int) + 1 ≤ n) →
      ∃ r, heapSortLoopT k heap = some r ∧ heapSortLoop k heap = some r.1 ∧
        ∀ x ∈ r.2, 1 ≤ x ∧ x ≤ n := by
  intro k
  induction k with
  | zero =>
    intro heap _
    exact ⟨(heap, []), rfl, rfl, fun x hx => absurd hx (List.not_mem_nil x)⟩
  | succ k ih =>
    intro heap hk
    have hkn : (k : Int) + 2 ≤ n := by omega
    obtain ⟨r1, e1, p1, b1⟩ :=
      downAdjustT_spec (swap heap ((k : Int) + 2) 1) 1 ((k : Int) + 1) (le_refl _)
        (by omega) (by omega)
    obtain ⟨r2, e2, p2, b2⟩ := ih r1.1 (Or.inr (by omega))
    refine ⟨(r2.1, [(k : Int) + 2, 1] ++ r1.2 ++ r2.2), ?_, ?_, ?_⟩
    · simp only [heapSortLoopT, e1, Option.some_bind, e2, Option.map_some']
    · simp only [heapSortLoop, p1, Option.some_bind, p2]
    · intro x hx
      simp only [List.mem_append] at hx
      rcases hx with (hx | hx) | hx
      · simp only [List.mem_cons, List.mem_singleton, List.not_mem_nil, or_false] at hx
        omega
      · have := b1 x hx
        omega
      · exact b2 x hx

theorem heapSortT_spec (s : HeapState) (hB : s.n < 1073741824) :
    ∃ r, heapSortT s = some r ∧ heapSort s = some r.1 ∧
      ∀ x ∈ r.2, 1 ≤ x ∧ x ≤ s.n := by
  obtain ⟨r1, e1, p1, hn, b1⟩ := createHeapT_spec s hB
  obtain ⟨r2, e2, p2, b2⟩ :=
    heapSortLoopT_spec s.n hB (s.n - 1).toNat r1.1.heap (by omega)
  refine ⟨(⟨r2.1, s.n⟩, r1.2 ++ r2.2), ?_, ?_, ?_⟩
  · simp only [heapSortT, e1, Option.some_bind, hn, e2, Option.map_some']
  · simp only [heapSort, p1, Option.some_bind, hn, p2, Option.map_some']
  · intro x hx
    rw [List.mem_append] at hx
    rcases hx with hx | hx
    · exact b1 x hx
    · exact b2 x hx

theorem deleteTopT_spec (s : HeapState) (hn : 1 ≤ s.n) (hB : s.n < 1073741824) :
    ∃ r, deleteTopT s = some r ∧ deleteTop s = some r.1 ∧
      ∀ x ∈ r.2, 1 ≤ x ∧ x ≤ s.n := by
  obtain ⟨r1, e1, p1, b1⟩ :=
    downAdjustT_spec (store s.heap 1 (s.heap s.n)) 1 (s.n - 1) (le_refl _)
      (by omega) (by omega)
  refine ⟨(⟨r1.1, s.n - 1⟩, [s.n, 1] ++ r1.2), ?_, ?_, ?_⟩
  · simp only [deleteTopT, e1, Option.map_some']
  · simp only [deleteTop, p1, Option.map_some']
  · intro x hx
    rw [List.mem_append] at hx
    rcases hx with hx | hx
    · simp only [List.mem_cons, List.mem_singleton, List.not_mem_nil, or_false] at hx
      omega
    · have := b1 x hx
      omega

theorem insertT_spec (s : HeapState) (x : Int) (hn : 0 ≤ s.n) :
    ∃ r, insertT s x = some r ∧ insert s x = some r.1 ∧
      ∀ k ∈ r.2, 1 ≤ k ∧ k ≤ s.n + 1 := by
  obtain ⟨r1, e1, p1, b1⟩ :=
    upAdjustT_spec (store s.heap (s.n + 1) x) (s.n + 1) (by omega)
  refine ⟨(⟨r1.1, s.n + 1⟩, [s.n + 1] ++ r1.2), ?_, ?_, ?_⟩
  · simp only [insertT, e1, Option.map_some']
  · simp only [insert, p1, Option.map_some']
  · intro k hk
    rw [List.mem_append] at hk
    rcases hk with hk | hk
    · simp only [List.mem_singleton] at hk
      omega
    · exact b1 k hk

/-- One evaluation of the loop of `upAdjust`. -/
theorem upAdjustLoop_succ (fuel : Nat) (heap : Int → Int) (low i j : Int) :
    upAdjustLoop (fuel + 1) heap low i j =
      if j ≥ low then
        if heap i > heap j then upAdjustLoop fuel (swap heap i j) low j (Int.tdiv j 2)
        else some heap
      else some heap :=
  rfl

/-! ## The claims -/

/-- C1: for every count `n` with `0 ≤ n ≤ maxn - 1` and every content of the array,
`heapSort()` returns and leaves `heap[1..n]` in non-decreasing order, that is
`heap[i] ≤ heap[i+1]` for every `1 ≤ i < n`; moreover `[4,1,3,2,16,9,10,14,8,7]`
becomes `[1,2,3,4,7,8,9,10,14,16]` and `[5,4,3,2,1]` becomes `[1,2,3,4,5]`. -/
theorem heapSort_sorted :
    (∀ s : HeapState, 0 ≤ s.n → s.n ≤ maxn - 1 →
      ∃ s1, heapSort s = some s1 ∧
        ∀ i, 1 ≤ i → i < s.n → s1.heap i ≤ s1.heap (i + 1)) ∧
    (heapSort (ofList [4, 1, 3, 2, 16, 9, 10, 14, 8, 7])).map (fun s => segment s.heap s.n)
      = some [1, 2, 3, 4, 7, 8, 9, 10, 14, 16] ∧
    (heapSort (ofList [5, 4, 3, 2, 1])).map (fun s => segment s.heap s.n)
      = some [1, 2, 3, 4, 5] := by
  refine ⟨fun s _ h1 => ?_, by decide, by decide⟩
  obtain ⟨s1, e, _, _, hs⟩ := heapSort_spec s (maxn_bound h1)
  exact ⟨s1, e, hs⟩

theorem heapSort_sorted_witness :
    ∃ s1, heapSort (ofList [3, 1, 2]) = some s1 ∧
      ∀ i, 1 ≤ i → i < (ofList [3, 1, 2]).n → s1.heap i ≤ s1.heap (i + 1) :=
  heapSort_sorted.1 (ofList [3, 1, 2]) (by decide) (by decide)

/-- C2: for every count `n` with `0 ≤ n ≤ maxn - 1` and every content of the array,
`heapSort()` returns, the segment `heap[1..n]` afterwards is a permutation of the
original segment, and every position outside `[1, n]` keeps its value. -/
theorem heapSort_perm (s : HeapState) (_h0 : 0 ≤ s.n) (h1 : s.n ≤ maxn - 1) :
    ∃ s1, heapSort s = some s1 ∧
      (segment s1.heap s.n).Perm (segment s.heap s.n) ∧
      ∀ k, (k < 1 ∨ s.n < k) → s1.heap k = s.heap k := by
  obtain ⟨s1, e, _, sw, _⟩ := heapSort_spec s (maxn_bound h1)
  exact ⟨s1, e, sw.perm s.n (le_refl _) (le_refl _), fun k hk => sw.frame k hk⟩

theorem heapSort_perm_witness :
    ∃ s1, heapSort (ofList [3, 1, 2]) = some s1 ∧
      (segment s1.heap (ofList [3, 1, 2]).n).Perm
        (segment (ofList [3, 1, 2]).heap (ofList [3, 1, 2]).n) ∧
      ∀ k, (k < 1 ∨ (ofList [3, 1, 2]).n < k) → s1.heap k = (ofList [3, 1, 2]).heap k :=
  heapSort_perm (ofList [3, 1, 2]) (by decide) (by decide)

/-- C3: for every count `n` with `0 ≤ n ≤ maxn - 1` and every content of `heap[1..n]`,
`createHeap()` returns and afterwards `heap[1..n]` has the max-heap property: every
index `i` of `[1, n]` is at least as large as each child `2i`, `2i+1` that is `≤ n`. -/
theorem createHeap_maxHeap (s : HeapState) (_h0 : 0 ≤ s.n) (h1 : s.n ≤ maxn - 1) :
    ∃ s1, createHeap s = some s1 ∧
      ∀ i, 1 ≤ i → i ≤ s.n →
        ∀ c, (c = 2 * i ∨ c = 2 * i + 1) → c ≤ s.n → s1.heap i ≥ s1.heap c := by
  obtain ⟨s1, e, _, _, hp⟩ := createHeap_spec s (maxn_bound h1)
  exact ⟨s1, e, hp⟩

theorem createHeap_maxHeap_witness :
    ∃ s1, createHeap (ofList [1, 5, 7, 9]) = some s1 ∧
      ∀ i, 1 ≤ i → i ≤ (ofList [1, 5, 7, 9]).n →
        ∀ c, (c = 2 * i ∨ c = 2 * i + 1) → c ≤ (ofList [1, 5, 7, 9]).n →
          s1.heap i ≥ s1.heap c :=
  createHeap_maxHeap (ofList [1, 5, 7, 9]) (by decide) (by decide)

/-- C4: for every state in which `heap[1..n]` is a max-heap and `0 ≤ n ≤ maxn - 2`, and
every `x`: `insert(x)` returns, the new count is `n + 1`, the segment `heap[1..n+1]` is
a max-heap, and its elements are those of the original `heap[1..n]` with one occurrence
of `x` added. -/
theorem insert_maxHeap (s : HeapState) (x : Int) (hh : MaxHeapOn s.heap 1 s.n)
    (h0 : 0 ≤ s.n) (_h1 : s.n ≤ maxn - 2) :
    ∃ s1, insert s x = some s1 ∧ s1.n = s.n + 1 ∧ MaxHeapOn s1.heap 1 s1.n ∧
      (segment s1.heap s1.n).Perm (x :: segment s.heap s.n) := by
  obtain ⟨s1, e, hn, hp, perm⟩ := insert_spec s x h0 hh
  rw [← hn] at hp perm
  exact ⟨s1, e, hn, hp, perm⟩

theorem insert_maxHeap_witness :
    ∃ s1, insert (ofList [9, 5, 7]) 8 = some s1 ∧ s1.n = (ofList [9, 5, 7]).n + 1 ∧
      MaxHeapOn s1.heap 1 s1.n ∧
      (segment s1.heap s1.n).Perm (8 :: segment (ofList [9, 5, 7]).heap (ofList [9, 5, 7]).n) :=
  insert_maxHeap (ofList [9, 5, 7]) 8 maxHeapOn_example (by decide) (by decide)

/-- C5: for every state in which `heap[1..n]` is a max-heap and `1 ≤ n ≤ maxn - 1`:
the original `heap[1]` is at least as large as every element of the original
`heap[1..n]`; `deleteTop()` returns with count `n - 1`; the new segment `heap[1..n-1]`
holds the original elements with exactly one occurrence of the original `heap[1]`
removed; the new segment is again a max-heap; and for `n = 1` the result is the empty
heap with count `0`. -/
theorem deleteTop_removes_max (s : HeapState) (hh : MaxHeapOn s.heap 1 s.n)
    (h0 : 1 ≤ s.n) (h1 : s.n ≤ maxn - 1) :
    (∀ k, 1 ≤ k → k ≤ s.n → s.heap k ≤ s.heap 1) ∧
    ∃ s1, deleteTop s = some s1 ∧ s1.n = s.n - 1 ∧
      (segment s1.heap s1.n).Perm ((segment s.heap s.n).erase (s.heap 1)) ∧
      MaxHeapOn s1.heap 1 s1.n ∧
      (s.n = 1 → s1.n = 0 ∧ segment s1.heap s1.n = []) := by
  refine ⟨fun k hk1 hk2 => hh.root_max k hk1 hk2, ?_⟩
  obtain ⟨s1, e, hn, hp, perm⟩ := deleteTop_spec s h0 (maxn_bound h1) hh
  rw [← hn] at hp perm
  refine ⟨s1, e, hn, (List.cons_perm_iff_perm_erase.1 perm).2, hp, fun h => ?_⟩
  have hz : s1.n = 0 := by omega
  exact ⟨hz, segment_nonpos _ _ (by omega)⟩

theorem deleteTop_removes_max_witness :
    (∀ k, 1 ≤ k → k ≤ (ofList [9, 5, 7]).n →
      (ofList [9, 5, 7]).heap k ≤ (ofList [9, 5, 7]).heap 1) ∧
    ∃ s1, deleteTop (ofList [9, 5, 7]) = some s1 ∧ s1.n = (ofList [9, 5, 7]).n - 1 ∧
      (segment s1.heap s1.n).Perm
        ((segment (ofList [9, 5, 7]).heap (ofList [9, 5, 7]).n).erase
          ((ofList [9, 5, 7]).heap 1)) ∧
      MaxHeapOn s1.heap 1 s1.n ∧
      ((ofList [9, 5, 7]).n = 1 → s1.n = 0 ∧ segment s1.heap s1.n = []) :=
  deleteTop_removes_max (ofList [9, 5, 7]) maxHeapOn_example (by decide) (by decide)

/-- C6: for every array and all indices `1 ≤ low ≤ high ≤ maxn - 1`: if before the call
`heap[p] ≥ heap[c]` holds for every `p` with `low < p ≤ high` and every child `c` of `p`
with `c ≤ high`, then `downAdjust(low, high)` returns and afterwards `heap[p] ≥ heap[c]`
holds for every `p` with `low ≤ p ≤ high` and every child `c` of `p` with `c ≤ high`. -/
theorem downAdjust_restores (heap : Int → Int) (low high : Int)
    (h1 : 1 ≤ low) (h2 : low ≤ high) (h3 : high ≤ maxn - 1)
    (pre : ∀ p, low < p → p ≤ high →
      ∀ c, (c = 2 * p ∨ c = 2 * p + 1) → c ≤ high → heap p ≥ heap c) :
    ∃ heap1, downAdjust heap low high = some heap1 ∧
      ∀ p, low ≤ p → p ≤ high →
        ∀ c, (c = 2 * p ∨ c = 2 * p + 1) → c ≤ high → heap1 p ≥ heap1 c := by
  have hB := maxn_bound h3
  obtain ⟨heap1, e, _, hp⟩ := downAdjust_spec heap low high h1 (by omega) hB
  exact ⟨heap1, e, hp pre⟩

theorem downAdjust_restores_witness :
    ∃ heap1, downAdjust (ofList [1, 9, 5]).heap 1 3 = some heap1 ∧
      ∀ p, 1 ≤ p → p ≤ 3 →
        ∀ c, (c = 2 * p ∨ c = 2 * p + 1) → c ≤ 3 → heap1 p ≥ heap1 c :=
  downAdjust_restores (ofList [1, 9, 5]).heap 1 3 (by decide) (by decide) (by decide)
    (fun p hp1 hp2 c hc hcn => by omega)

/-- C7: for every array and every index `high` with `1 ≤ high ≤ maxn - 1`: if before the
call `heap[i/2] ≥ heap[i]` holds for every `i` of `[2, high]` other than `i = high`,
then `upAdjust(1, high)` returns and afterwards `heap[i/2] ≥ heap[i]` holds for every
`i` of `[2, high]`. -/
theorem upAdjust_restores (heap : Int → Int) (high : Int)
    (h1 : 1 ≤ high) (_h2 : high ≤ maxn - 1)
    (pre : ∀ i, 2 ≤ i → i ≤ high → i ≠ high → heap (i / 2) ≥ heap i) :
    ∃ heap1, upAdjust heap 1 high = some heap1 ∧
      ∀ i, 2 ≤ i → i ≤ high → heap1 (i / 2) ≥ heap1 i := by
  obtain ⟨heap1, e, _, hp⟩ := upAdjust_spec heap high (by omega)
  exact ⟨heap1, e, hp h1 pre⟩

theorem upAdjust_restores_witness :
    ∃ heap1, upAdjust (ofList [5, 9]).heap 1 2 = some heap1 ∧
      ∀ i, 2 ≤ i → i ≤ 2 → heap1 (i / 2) ≥ heap1 i :=
  upAdjust_restores (ofList [5, 9]).heap 2 (by decide) (by decide)
    (fun i hi1 hi2 hne => by omega)

/-- C8: for every state in which `heap[1..n]` is a max-heap (`0 ≤ n ≤ maxn - 1`):
reading `heap[1]` and then calling `deleteTop()`, repeated `n` times, returns; the `n`
values read are in non-increasing order and are the original elements `heap[1..n]`
sorted in descending order; the count is `0` afterwards. -/
theorem drain_sorted (s : HeapState) (hh : MaxHeapOn s.heap 1 s.n)
    (h0 : 0 ≤ s.n) (h1 : s.n ≤ maxn - 1) :
    ∃ out s1, drain s.n.toNat s = some (out, s1) ∧ out.length = s.n.toNat ∧
      out.Sorted (· ≥ ·) ∧ out = (segment s.heap s.n).insertionSort (· ≥ ·) ∧
      s1.n = 0 := by
  obtain ⟨out, s1, e, perm, hs, hz⟩ :=
    drain_spec s.n.toNat s (by omega) (maxn_bound h1) hh
  refine ⟨out, s1, e, ?_, hs, ?_, hz⟩
  · rw [perm.length_eq, segment_length]
  · exact List.eq_of_perm_of_sorted (perm.trans (List.perm_insertionSort _ _).symm) hs
      (List.sorted_insertionSort _ _)

theorem drain_sorted_witness :
    ∃ out s1, drain (ofList [9, 5, 7]).n.toNat (ofList [9, 5, 7]) = some (out, s1) ∧
      out.length = (ofList [9, 5, 7]).n.toNat ∧ out.Sorted (· ≥ ·) ∧
      out = (segment (ofList [9, 5, 7]).heap (ofList [9, 5, 7]).n).insertionSort (· ≥ ·) ∧
      s1.n = 0 :=
  drain_sorted (ofList [9, 5, 7]) maxHeapOn_example (by decide) (by decide)

/-- C9: for every count `n` with `1 ≤ n ≤ maxn - 1` and every content of `heap[1..n]`,
`createHeap()` returns and afterwards every node is at least as large as every node of
the subtree rooted at it within `[1, n]`; in particular `heap[1]` is one of the
original elements `heap[1..n]` and at least as large as each of them; and for
`[4,1,3,2,16,9,10,14,8,7]` position `1` holds `16` afterwards. -/
theorem createHeap_subtree_max :
    (∀ s : HeapState, 1 ≤ s.n → s.n ≤ maxn - 1 →
      ∃ s1, createHeap s = some s1 ∧
        (∀ i k, 1 ≤ i → InSubtree i k → k ≤ s.n → s1.heap k ≤ s1.heap i) ∧
        (∀ k, 1 ≤ k → k ≤ s.n → s.heap k ≤ s1.heap 1) ∧
        (∃ k, 1 ≤ k ∧ k ≤ s.n ∧ s1.heap 1 = s.heap k)) ∧
    (createHeap (ofList [4, 1, 3, 2, 16, 9, 10, 14, 8, 7])).map (fun s => s.heap 1)
      = some 16 := by
  refine ⟨fun s h0 h1 => ?_, by decide⟩
  obtain ⟨s1, e, _, sw, hp⟩ := createHeap_spec s (maxn_bound h1)
  refine ⟨s1, e, fun i k hi hs hk => hp.subtree i hi k hs hk, ?_, sw.mem 1 (le_refl _) h0⟩
  intro k hk1 hk2
  have hmem : s.heap k ∈ segment s1.heap s.n :=
    (sw.perm s.n (le_refl _) (le_refl _)).symm.subset
      ((mem_segment _ _ _).2 ⟨k, hk1, hk2, rfl⟩)
  obtain ⟨m, hm1, hm2, hm⟩ := (mem_segment _ _ _).1 hmem
  rw [← hm]
  exact hp.root_max m hm1 hm2

theorem createHeap_subtree_max_witness :
    ∃ s1, createHeap (ofList [1, 5, 7, 9]) = some s1 ∧
      (∀ i k, 1 ≤ i → InSubtree i k → k ≤ (ofList [1, 5, 7, 9]).n →
        s1.heap k ≤ s1.heap i) ∧
      (∀ k, 1 ≤ k → k ≤ (ofList [1, 5, 7, 9]).n → (ofList [1, 5, 7, 9]).heap k ≤ s1.heap 1) ∧
      (∃ k, 1 ≤ k ∧ k ≤ (ofList [1, 5, 7, 9]).n ∧ s1.heap 1 = (ofList [1, 5, 7, 9]).heap k) :=
  createHeap_subtree_max.1 (ofList [1, 5, 7, 9]) (by decide) (by decide)

/-- C10: size accounting, for every state whose count is in range: `insert(x)`, for
`0 ≤ n ≤ maxn - 2` (the old and the new count are both in `0 .. maxn - 1`, so that the
store `heap[n + 1]` is to a slot of the array), returns with the count increased by
exactly `1`; `deleteTop()` on a non-empty heap (`1 ≤ n ≤ maxn - 1`) returns with the
count decreased by exactly `1`; `createHeap()` and `heapSort()` (`0 ≤ n ≤ maxn - 1`)
return with the count unchanged. -/
theorem size_accounting :
    (∀ (s : HeapState) (x : Int), 0 ≤ s.n → s.n ≤ maxn - 2 →
      ∃ s1, insert s x = some s1 ∧ s1.n = s.n + 1) ∧
    (∀ s : HeapState, 1 ≤ s.n → s.n ≤ maxn - 1 →
      ∃ s1, deleteTop s = some s1 ∧ s1.n = s.n - 1) ∧
    (∀ s : HeapState, 0 ≤ s.n → s.n ≤ maxn - 1 →
      ∃ s1, createHeap s = some s1 ∧ s1.n = s.n) ∧
    (∀ s : HeapState, 0 ≤ s.n → s.n ≤ maxn - 1 →
      ∃ s1, heapSort s = some s1 ∧ s1.n = s.n) := by
  refine ⟨fun s x h0 _ => ?_, fun s _ h1 => ?_, fun s _ h1 => ?_, fun s _ h1 => ?_⟩
  · obtain ⟨heap1, e, _⟩ := upAdjust_spec (store s.heap (s.n + 1) x) (s.n + 1) (by omega)
    exact ⟨⟨heap1, s.n + 1⟩, by simp only [insert, e, Option.map_some'], rfl⟩
  · have hB := maxn_bound h1
    obtain ⟨heap1, e, _⟩ :=
      downAdjust_spec (store s.heap 1 (s.heap s.n)) 1 (s.n - 1) (le_refl _)
        (by omega) (by omega)
    exact ⟨⟨heap1, s.n - 1⟩, by simp only [deleteTop, e, Option.map_some'], rfl⟩
  · obtain ⟨s1, e, hn, _⟩ := createHeap_spec s (maxn_bound h1)
    exact ⟨s1, e, hn⟩
  · obtain ⟨s1, e, hn, _⟩ := heapSort_spec s (maxn_bound h1)
    exact ⟨s1, e, hn⟩

theorem size_accounting_witness :
    (∃ s1, insert (ofList [2, 7, 4]) 5 = some s1 ∧ s1.n = (ofList [2, 7, 4]).n + 1) ∧
    (∃ s1, deleteTop (ofList [2, 7, 4]) = some s1 ∧ s1.n = (ofList [2, 7, 4]).n - 1) ∧
    (∃ s1, createHeap (ofList [2, 7, 4]) = some s1 ∧ s1.n = (ofList [2, 7, 4]).n) ∧
    (∃ s1, heapSort (ofList [2, 7, 4]) = some s1 ∧ s1.n = (ofList [2, 7, 4]).n) :=
  ⟨size_accounting.1 (ofList [2, 7, 4]) 5 (by decide) (by decide),
    size_accounting.2.1 (ofList [2, 7, 4]) (by decide) (by decide),
    size_accounting.2.2.1 (ofList [2, 7, 4]) (by decide) (by decide),
    size_accounting.2.2.2 (ofList [2, 7, 4]) (by decide) (by decide)⟩

/-- C11: heapify is idempotent: for every count `n` with `0 ≤ n ≤ maxn - 1` and every
content of the array, `createHeap()` returns, a second `createHeap()` returns as well,
and the state after the second call is identical, position by position, to the state
after the first. -/
theorem createHeap_idempotent (s : HeapState) (_h0 : 0 ≤ s.n) (h1 : s.n ≤ maxn - 1) :
    ∃ s1, createHeap s = some s1 ∧
      ∃ s2, createHeap s1 = some s2 ∧ s2.n = s1.n ∧ ∀ k, s2.heap k = s1.heap k := by
  have hB := maxn_bound h1
  obtain ⟨s1, e, hn, _, hp⟩ := createHeap_spec s hB
  rw [← hn] at hp hB
  exact ⟨s1, e, s1, createHeap_id s1 hB hp, rfl, fun _ => rfl⟩

theorem createHeap_idempotent_witness :
    ∃ s1, createHeap (ofList [1, 5, 7, 9]) = some s1 ∧
      ∃ s2, createHeap s1 = some s2 ∧ s2.n = s1.n ∧ ∀ k, s2.heap k = s1.heap k :=
  createHeap_idempotent (ofList [1, 5, 7, 9]) (by decide) (by decide)

/-- C12 (evaluation): on the full state with `n = maxn - 1` whose slots all hold `9`,
`insert(5)` checks no capacity and reports no error: its first array access is the store
at index `maxn`, which is past the last valid index `maxn - 1`, so the call does not
complete on the array. -/
theorem insert_full_counterexample :
    (⟨fun _ => 9, maxn - 1⟩ : HeapState).n = maxn - 1 ∧
    (insertT ⟨fun _ => 9, maxn - 1⟩ 5).map (fun r => r.2.head?) = some (some maxn) ∧
    ¬ (maxn < maxn) ∧
    ¬ Completes (insertT ⟨fun _ => 9, maxn - 1⟩ 5) := by
  obtain ⟨r, t, e, ht⟩ := insertT_first ⟨fun _ => 9, maxn - 1⟩ 5 (by decide)
  have hm : (⟨fun _ => 9, maxn - 1⟩ : HeapState).n + 1 = maxn := by decide
  rw [hm] at ht
  refine ⟨rfl, ?_, by decide, ?_⟩
  · rw [e, Option.map_some', ht]
    rfl
  · exact not_completes_of_mem (a := r.1) (t := r.2) e maxn (by rw [ht]; exact List.mem_cons_self _ _)
      (by decide)

/-- C12 (amended): `insert(x)` has no capacity check.  For every state with
`n = maxn - 1` and every `x` it reports no error before touching the array: its first
array access is the store at index `maxn`, one past the last valid index `maxn - 1`, so
the call does not complete on the array (its behaviour from that store on is undefined
and nothing is stated about it). -/
theorem insert_full_unguarded (s : HeapState) (x : Int) (h : s.n = maxn - 1) :
    (insertT s x).map (fun r => r.2.head?) = some (some maxn) ∧
    ¬ (maxn < maxn) ∧
    ¬ Completes (insertT s x) := by
  have hm : s.n + 1 = maxn := by omega
  obtain ⟨r, t, e, ht⟩ := insertT_first s x (by rw [h]; decide)
  rw [hm] at ht
  refine ⟨?_, by decide, ?_⟩
  · rw [e, Option.map_some', ht]
    rfl
  · exact not_completes_of_mem (a := r.1) (t := r.2) e maxn (by rw [ht]; exact List.mem_cons_self _ _)
      (by decide)

theorem insert_full_unguarded_witness :
    (insertT ⟨fun _ => 9, maxn - 1⟩ 5).map (fun r => r.2.head?) = some (some maxn) ∧
    ¬ (maxn < maxn) ∧
    ¬ Completes (insertT ⟨fun _ => 9, maxn - 1⟩ 5) :=
  insert_full_unguarded ⟨fun _ => 9, maxn - 1⟩ 5 rfl

/-- C13 (evaluation): on the empty state with `n = 0`, `heap[0] = 7` and every other
slot `3`, `deleteTop()` reports no error: it returns with the count `-1` instead of
`0`, and `heap[1]` has been overwritten with `7`. -/
theorem deleteTop_empty_counterexample :
    (⟨fun k => if k = 0 then 7 else 3, 0⟩ : HeapState).n = 0 ∧
    (⟨fun k => if k = 0 then 7 else 3, 0⟩ : HeapState).heap 1 = 3 ∧
    ∃ s1, deleteTop ⟨fun k => if k = 0 then 7 else 3, 0⟩ = some s1 ∧
      s1.n = -1 ∧ s1.n ≠ 0 ∧ s1.heap 1 = 7 :=
  ⟨rfl, by decide, ⟨store (fun k => if k = 0 then 7 else 3) 1 7, -1⟩, by rfl, by rfl,
    by decide, by decide⟩

/-- C13 (amended): `deleteTop()` has no emptiness check.  For every state with `n = 0`
it reports no error: it returns with the count `-1`, `heap[1]` holds the old `heap[0]`,
and every other position is unchanged. -/
theorem deleteTop_empty_unguarded (s : HeapState) (h : s.n = 0) :
    ∃ s1, deleteTop s = some s1 ∧ s1.n = -1 ∧ s1.heap 1 = s.heap 0 ∧
      ∀ k, k ≠ 1 → s1.heap k = s.heap k := by
  obtain ⟨heap, n⟩ := s
  simp only at h
  subst h
  exact ⟨⟨store heap 1 (heap 0), -1⟩, by rfl, by rfl, store_same heap 1 (heap 0),
    fun k hk => store_other heap 1 (heap 0) k hk⟩

theorem deleteTop_empty_unguarded_witness :
    ∃ s1, deleteTop ⟨fun k => if k = 0 then 7 else 3, 0⟩ = some s1 ∧ s1.n = -1 ∧
      s1.heap 1 = (⟨fun k => if k = 0 then 7 else 3, 0⟩ : HeapState).heap 0 ∧
      ∀ k, k ≠ 1 → s1.heap k = (⟨fun k => if k = 0 then 7 else 3, 0⟩ : HeapState).heap k :=
  deleteTop_empty_unguarded ⟨fun k => if k = 0 then 7 else 3, 0⟩ rfl

/-- C14: for count `n = 0` and for count `n = 1`, and every content of the array,
`heapSort()` returns and leaves the whole array and the count unchanged. -/
theorem heapSort_trivial (s : HeapState) (h : s.n = 0 ∨ s.n = 1) :
    ∃ s1, heapSort s = some s1 ∧ s1.n = s.n ∧ ∀ k, s1.heap k = s.heap k :=
  ⟨s, heapSort_small s h, rfl, fun _ => rfl⟩

theorem heapSort_trivial_witness :
    ∃ s1, heapSort (ofList [7]) = some s1 ∧ s1.n = (ofList [7]).n ∧
      ∀ k, s1.heap k = (ofList [7]).heap k :=
  heapSort_trivial (ofList [7]) (Or.inr rfl)

/-- C18: for every count `n` with `0 ≤ n ≤ maxn - 1` and every content of the array,
`createHeap()` returns, the segment `heap[1..n]` afterwards is a permutation of the
original segment, and every position outside `[1, n]` keeps its value. -/
theorem createHeap_perm (s : HeapState) (_h0 : 0 ≤ s.n) (h1 : s.n ≤ maxn - 1) :
    ∃ s1, createHeap s = some s1 ∧
      (segment s1.heap s.n).Perm (segment s.heap s.n) ∧
      ∀ k, (k < 1 ∨ s.n < k) → s1.heap k = s.heap k := by
  obtain ⟨s1, e, _, sw, _⟩ := createHeap_spec s (maxn_bound h1)
  exact ⟨s1, e, sw.perm s.n (le_refl _) (le_refl _), fun k hk => sw.frame k hk⟩

theorem createHeap_perm_witness :
    ∃ s1, createHeap (ofList [1, 5, 7, 9]) = some s1 ∧
      (segment s1.heap (ofList [1, 5, 7, 9]).n).Perm
        (segment (ofList [1, 5, 7, 9]).heap (ofList [1, 5, 7, 9]).n) ∧
      ∀ k, (k < 1 ∨ (ofList [1, 5, 7, 9]).n < k) →
        s1.heap k = (ofList [1, 5, 7, 9]).heap k :=
  createHeap_perm (ofList [1, 5, 7, 9]) (by decide) (by decide)

/-- C15: for every array and all indices `1 ≤ low ≤ high ≤ maxn - 1`,
`downAdjust(low, high)` returns, every position outside `[low, high]` keeps its value,
the segment `heap[low..high]` afterwards is a permutation of the original segment, and
the result arises by swaps of two positions inside `[low, high]` only. -/
theorem downAdjust_frame (heap : Int → Int) (low high : Int)
    (h1 : 1 ≤ low) (h2 : low ≤ high) (h3 : high ≤ maxn - 1) :
    ∃ heap1, downAdjust heap low high = some heap1 ∧
      (∀ k, (k < low ∨ high < k) → heap1 k = heap k) ∧
      (segmentFrom heap1 low high).Perm (segmentFrom heap low high) ∧
      Swaps low high heap heap1 := by
  have hB := maxn_bound h3
  obtain ⟨heap1, e, sw, _⟩ := downAdjust_spec heap low high h1 (by omega) hB
  exact ⟨heap1, e, fun k hk => sw.frame k hk, sw.permFrom, sw⟩

theorem downAdjust_frame_witness :
    ∃ heap1, downAdjust (ofList [1, 9, 5]).heap 1 3 = some heap1 ∧
      (∀ k, (k < 1 ∨ 3 < k) → heap1 k = (ofList [1, 9, 5]).heap k) ∧
      (segmentFrom heap1 1 3).Perm (segmentFrom (ofList [1, 9, 5]).heap 1 3) ∧
      Swaps 1 3 (ofList [1, 9, 5]).heap heap1 :=
  downAdjust_frame (ofList [1, 9, 5]).heap 1 3 (by decide) (by decide) (by decide)

/-- C16: sift-down tie-break.  For every array and indices with `1 ≤ low` and
`2 * low + 1 ≤ high ≤ maxn - 1` in which the two children of `low` are equal and greater
than the parent, `downAdjust(low, high)` returns; afterwards `heap[low]` holds the
children's value, the original `heap[low]` is at a node of the subtree rooted at the
left child `2 * low` within `high`, and every position of the subtree rooted at the
right child `2 * low + 1` is unchanged. -/
theorem downAdjust_tie_left (heap : Int → Int) (low high : Int)
    (h1 : 1 ≤ low) (h2 : 2 * low + 1 ≤ high) (h3 : high ≤ maxn - 1)
    (heq : heap (2 * low) = heap (2 * low + 1)) (hgt : heap (2 * low) > heap low) :
    ∃ heap1, downAdjust heap low high = some heap1 ∧
      heap1 low = heap (2 * low) ∧
      (∃ k, InSubtree (2 * low) k ∧ k ≤ high ∧ heap1 k = heap low) ∧
      ∀ k, InSubtree (2 * low + 1) k → heap1 k = heap k := by
  have hB := maxn_bound h3
  obtain ⟨c, hc1, _, hc3, _, e⟩ :=
    downAdjustLoop_succ ((high - low).toNat + 1) heap low (2 * low) high (by omega) hB
  have hc : c = 2 * low := by
    rcases hc1 with h | h
    · exact h
    · have := (hc3.1 h).2
      rw [heq] at this
      exact absurd this (lt_irrefl _)
  subst hc
  rw [if_pos (by omega), if_pos hgt] at e
  obtain ⟨heap1, e1, _⟩ := downAdjustLoop_swaps high hB ((high - low).toNat + 1)
    (swap heap low (2 * low)) (2 * low) (by omega) (by omega)
  obtain ⟨hout, k, hk1, hk2, hk3⟩ :=
    downAdjustLoop_path high hB _ (swap heap low (2 * low)) heap1 (2 * low) (by omega) e1
  refine ⟨heap1, ?_, ?_, ⟨k, hk1, ?_, ?_⟩, fun m hm => ?_⟩
  · rw [downAdjust_eq heap low high (by omega) (by omega), e, e1]
  · have hn : ¬ InSubtree (2 * low) low := fun h => by
      have := h.le (by omega)
      omega
    rw [hout low hn, swap_left]
  · rcases hk2 with h | h
    · omega
    · exact h
  · rw [hk3, swap_right]
  · have hn : ¬ InSubtree (2 * low) m := fun h => InSubtree.not_sibling h1 h hm
    have := hm.le (by omega)
    rw [hout m hn, swap_other _ _ _ m (by omega) (by omega)]

theorem downAdjust_tie_left_witness :
    ∃ heap1, downAdjust (ofList [1, 5, 5, 2, 3, 4, 4]).heap 1 7 = some heap1 ∧
      heap1 1 = (ofList [1, 5, 5, 2, 3, 4, 4]).heap (2 * 1) ∧
      (∃ k, InSubtree (2 * 1) k ∧ k ≤ 7 ∧ heap1 k = (ofList [1, 5, 5, 2, 3, 4, 4]).heap 1) ∧
      ∀ k, InSubtree (2 * 1 + 1) k → heap1 k = (ofList [1, 5, 5, 2, 3, 4, 4]).heap k :=
  downAdjust_tie_left (ofList [1, 5, 5, 2, 3, 4, 4]).heap 1 7 (by decide) (by decide)
    (by decide) (by decide) (by decide)

/-- C17 (evaluation): on the two-element array `[5, 5]`, `heapSort()` returns and the
segment `heap[1..2]` is still a max-heap: no index `i` of `[2, n]` has
`heap[i/2] < heap[i]`. -/
theorem heapSort_equal_counterexample :
    2 ≤ (ofList [5, 5]).n ∧
    ∃ s1, heapSort (ofList [5, 5]) = some s1 ∧
      ¬ ∃ i, 2 ≤ i ∧ i ≤ (ofList [5, 5]).n ∧ s1.heap (i / 2) < s1.heap i := by
  refine ⟨by decide, ⟨swap (ofList [5, 5]).heap 2 1, 2⟩, by rfl, ?_⟩
  rintro ⟨i, hi1, hi2, hi3⟩
  have hn : (ofList [5, 5]).n = 2 := rfl
  rw [hn] at hi2
  have hi : i = 2 := by omega
  subst hi
  revert hi3
  decide

/-- C17 (amended): for every input array of `n ≥ 2` elements (`n ≤ maxn - 1`) that are
not all equal, `heapSort()` returns and afterwards the segment `heap[1..n]` is not a
max-heap: there is an index `i` of `[2, n]` with `heap[i/2] < heap[i]`. -/
theorem heapSort_not_heap (s : HeapState) (_h2 : 2 ≤ s.n) (h1 : s.n ≤ maxn - 1)
    (hne : ∃ a b, 1 ≤ a ∧ a ≤ s.n ∧ 1 ≤ b ∧ b ≤ s.n ∧ s.heap a ≠ s.heap b) :
    ∃ s1, heapSort s = some s1 ∧
      ∃ i, 2 ≤ i ∧ i ≤ s.n ∧ s1.heap (i / 2) < s1.heap i := by
  obtain ⟨s1, e, _, sw, hs⟩ := heapSort_spec s (maxn_bound h1)
  refine ⟨s1, e, ?_⟩
  by_contra hcon
  have hpar : ∀ k, 2 ≤ k → k ≤ s.n → s1.heap (k / 2) ≥ s1.heap k := by
    intro k hk1 hk2
    by_contra hlt
    exact hcon ⟨k, hk1, hk2, not_le.1 hlt⟩
  have hheap : MaxHeapOn s1.heap 1 s.n := MaxHeapOn.of_parent hpar
  have hall : ∀ k, 1 ≤ k → k ≤ s.n → s1.heap k = s1.heap 1 := by
    intro k hk1 hk2
    have hle := hheap.root_max k hk1 hk2
    have hge := mono_of_consecutive s1.heap s.n hs (k - 1).toNat 1 (le_refl _) (by omega)
    have ek : (1 : Int) + ((k - 1).toNat : Int) = k := by omega
    rw [ek] at hge
    exact le_antisymm hle hge
  have hval : ∀ a, 1 ≤ a → a ≤ s.n → s.heap a = s1.heap 1 := by
    intro a ha1 ha2
    have hmem : s.heap a ∈ segment s1.heap s.n :=
      (sw.perm s.n (le_refl _) (le_refl _)).symm.subset
        ((mem_segment _ _ _).2 ⟨a, ha1, ha2, rfl⟩)
    obtain ⟨m, hm1, hm2, hm⟩ := (mem_segment _ _ _).1 hmem
    rw [← hm]
    exact hall m hm1 hm2
  obtain ⟨a, b, ha1, ha2, hb1, hb2, hab⟩ := hne
  exact hab ((hval a ha1 ha2).trans (hval b hb1 hb2).symm)

theorem heapSort_not_heap_witness :
    ∃ s1, heapSort (ofList [3, 1, 2]) = some s1 ∧
      ∃ i, 2 ≤ i ∧ i ≤ (ofList [3, 1, 2]).n ∧ s1.heap (i / 2) < s1.heap i :=
  heapSort_not_heap (ofList [3, 1, 2]) (by decide) (by decide)
    ⟨1, 2, by decide, by decide, by decide, by decide, by decide⟩

/-- C19: every array access is in bounds under the size precondition.  With the access
log of each procedure: for `0 ≤ n ≤ maxn - 1`, `createHeap()` and `heapSort()` return
and touch only indices of `[1, n]`; `deleteTop()` with `n ≥ 1` touches only indices of
`[1, n]`; `insert(x)` with `n ≤ maxn - 2` touches only indices of `[1, n + 1]`;
`downAdjust(low, high)` with `1 ≤ low ≤ maxn - 1` and `high ≤ maxn - 1` touches only
indices of `[low, high]`; and `upAdjust(1, high)` with `0 ≤ high ≤ maxn - 1` touches
only indices of `[1, high]`, never index `0`.  All of these are slots `0 .. maxn - 1`
of the array, and each logged procedure returns the result of the procedure itself. -/
theorem accesses_in_bounds :
    (∀ s : HeapState, 0 ≤ s.n → s.n ≤ maxn - 1 →
      ∃ r, createHeapT s = some r ∧ createHeap s = some r.1 ∧
        ∀ k ∈ r.2, (1 ≤ k ∧ k ≤ s.n) ∧ (0 ≤ k ∧ k < maxn)) ∧
    (∀ s : HeapState, 0 ≤ s.n → s.n ≤ maxn - 1 →
      ∃ r, heapSortT s = some r ∧ heapSort s = some r.1 ∧
        ∀ k ∈ r.2, (1 ≤ k ∧ k ≤ s.n) ∧ (0 ≤ k ∧ k < maxn)) ∧
    (∀ s : HeapState, 1 ≤ s.n → s.n ≤ maxn - 1 →
      ∃ r, deleteTopT s = some r ∧ deleteTop s = some r.1 ∧
        ∀ k ∈ r.2, (1 ≤ k ∧ k ≤ s.n) ∧ (0 ≤ k ∧ k < maxn)) ∧
    (∀ (s : HeapState) (x : Int), 0 ≤ s.n → s.n ≤ maxn - 2 →
      ∃ r, insertT s x = some r ∧ insert s x = some r.1 ∧
        ∀ k ∈ r.2, (1 ≤ k ∧ k ≤ s.n + 1) ∧ (0 ≤ k ∧ k < maxn)) ∧
    (∀ (heap : Int → Int) (low high : Int), 1 ≤ low → low ≤ maxn - 1 → high ≤ maxn - 1 →
      ∃ r, downAdjustT heap low high = some r ∧ downAdjust heap low high = some r.1 ∧
        ∀ k ∈ r.2, (low ≤ k ∧ k ≤ high) ∧ (0 ≤ k ∧ k < maxn)) ∧
    (∀ (heap : Int → Int) (high : Int), 0 ≤ high → high ≤ maxn - 1 →
      ∃ r, upAdjustT heap 1 high = some r ∧ upAdjust heap 1 high = some r.1 ∧
        ∀ k ∈ r.2, k ≠ 0 ∧ (1 ≤ k ∧ k ≤ high) ∧ (0 ≤ k ∧ k < maxn)) := by
  refine ⟨fun s _ h1 => ?_, fun s _ h1 => ?_, fun s h0 h1 => ?_, fun s x h0 h1 => ?_,
    fun heap low high h hl hh => ?_, fun heap high h hh => ?_⟩
  · obtain ⟨r, e, p, _, b⟩ := createHeapT_spec s (maxn_bound h1)
    refine ⟨r, e, p, fun k hk => ?_⟩
    have := b k hk
    omega
  · obtain ⟨r, e, p, b⟩ := heapSortT_spec s (maxn_bound h1)
    refine ⟨r, e, p, fun k hk => ?_⟩
    have := b k hk
    omega
  · obtain ⟨r, e, p, b⟩ := deleteTopT_spec s h0 (maxn_bound h1)
    refine ⟨r, e, p, fun k hk => ?_⟩
    have := b k hk
    omega
  · obtain ⟨r, e, p, b⟩ := insertT_spec s x h0
    refine ⟨r, e, p, fun k hk => ?_⟩
    have := b k hk
    omega
  · obtain ⟨r, e, p, b⟩ :=
      downAdjustT_spec heap low high h (maxn_bound hl) (maxn_bound hh)
    refine ⟨r, e, p, fun k hk => ?_⟩
    have := b k hk
    omega
  · obtain ⟨r, e, p, b⟩ := upAdjustT_spec heap high h
    refine ⟨r, e, p, fun k hk => ?_⟩
    have := b k hk
    omega

theorem accesses_in_bounds_witness :
    (∃ r, createHeapT (ofList [2, 7, 4]) = some r ∧ createHeap (ofList [2, 7, 4]) = some r.1 ∧
      ∀ k ∈ r.2, (1 ≤ k ∧ k ≤ (ofList [2, 7, 4]).n) ∧ (0 ≤ k ∧ k < maxn)) ∧
    (∃ r, heapSortT (ofList [2, 7, 4]) = some r ∧ heapSort (ofList [2, 7, 4]) = some r.1 ∧
      ∀ k ∈ r.2, (1 ≤ k ∧ k ≤ (ofList [2, 7, 4]).n) ∧ (0 ≤ k ∧ k < maxn)) ∧
    (∃ r, deleteTopT (ofList [2, 7, 4]) = some r ∧ deleteTop (ofList [2, 7, 4]) = some r.1 ∧
      ∀ k ∈ r.2, (1 ≤ k ∧ k ≤ (ofList [2, 7, 4]).n) ∧ (0 ≤ k ∧ k < maxn)) ∧
    (∃ r, insertT (ofList [2, 7, 4]) 5 = some r ∧ insert (ofList [2, 7, 4]) 5 = some r.1 ∧
      ∀ k ∈ r.2, (1 ≤ k ∧ k ≤ (ofList [2, 7, 4]).n + 1) ∧ (0 ≤ k ∧ k < maxn)) ∧
    (∃ r, downAdjustT (ofList [2, 7, 4]).heap 1 3 = some r ∧
      downAdjust (ofList [2, 7, 4]).heap 1 3 = some r.1 ∧
      ∀ k ∈ r.2, (1 ≤ k ∧ k ≤ 3) ∧ (0 ≤ k ∧ k < maxn)) ∧
    (∃ r, upAdjustT (ofList [2, 7, 4]).heap 1 3 = some r ∧
      upAdjust (ofList [2, 7, 4]).heap 1 3 = some r.1 ∧
      ∀ k ∈ r.2, k ≠ 0 ∧ (1 ≤ k ∧ k ≤ 3) ∧ (0 ≤ k ∧ k < maxn)) :=
  ⟨accesses_in_bounds.1 (ofList [2, 7, 4]) (by decide) (by decide),
    accesses_in_bounds.2.1 (ofList [2, 7, 4]) (by decide) (by decide),
    accesses_in_bounds.2.2.1 (ofList [2, 7, 4]) (by decide) (by decide),
    accesses_in_bounds.2.2.2.1 (ofList [2, 7, 4]) 5 (by decide) (by decide),
    accesses_in_bounds.2.2.2.2.1 (ofList [2, 7, 4]).heap 1 3 (by decide) (by decide)
      (by decide),
    accesses_in_bounds.2.2.2.2.2 (ofList [2, 7, 4]).heap 3 (by decide) (by decide)⟩

/-- C20 (evaluation): `downAdjust(low, high)` does not terminate normally on every
input with `0 ≤ low` and `0 ≤ high ≤ maxn - 1`.  For `low = 2^30` and `high = 3` on the
all-zero array, the 32-bit doubling `2 * low` wraps to `-2^31`, the loop is entered, and
the first array access is at index `-2147483647`, outside the array: the call does not
complete. -/
theorem downAdjust_overflow_counterexample :
    (0 : Int) ≤ 1073741824 ∧ (0 : Int) ≤ 3 ∧ (3 : Int) ≤ maxn - 1 ∧
    wrap32 (2 * 1073741824) = -2147483648 ∧
    (downAdjustT (fun _ => 0) 1073741824 3).map (fun r => r.2.head?)
      = some (some (-2147483647)) ∧
    ¬ Completes (downAdjustT (fun _ => 0) 1073741824 3) := by
  have e : downAdjustT (fun _ => 0) 1073741824 3 =
      some (fun _ => 0, [-2147483647, -2147483648, -2147483648, 1073741824]) := by rfl
  refine ⟨by decide, by decide, by decide, by decide, ?_, ?_⟩
  · rw [e]
    rfl
  · exact not_completes_of_mem e (-2147483647) (List.mem_cons_self _ _) (by decide)

/-- C20 (amended): the two adjustment loops terminate on every input whose doubled
cursor fits in an `int`.  For every array and all indices `0 ≤ low ≤ 2^30 - 1` and
`0 ≤ high ≤ maxn - 1`, `downAdjust(low, high)` returns, touching slots of the array
only (also for `low = 0`); for every `low` and every `0 ≤ high ≤ maxn - 1`,
`upAdjust(low, high)` returns, touching slots of the array only (also for `low ≤ 0`);
an iteration of the loop of `downAdjust` at a cursor `1 ≤ i ≤ 2^30 - 1` (with
`high ≤ maxn - 1`) either ends the loop or continues at a strictly larger cursor
`c ≤ high`; and an
iteration of the loop of `upAdjust` with `low ≥ 1` either ends the loop or continues at
the strictly smaller cursor `i / 2 ≥ low`. -/
theorem adjust_terminates :
    (∀ (heap : Int → Int) (low high : Int), 0 ≤ low → low ≤ 1073741823 → 0 ≤ high →
      high ≤ maxn - 1 →
      Completes (downAdjustT heap low high) ∧
        ∃ heap1, downAdjust heap low high = some heap1) ∧
    (∀ (heap : Int → Int) (low high : Int), 0 ≤ high → high ≤ maxn - 1 →
      Completes (upAdjustT heap low high) ∧
        ∃ heap1, upAdjust heap low high = some heap1) ∧
    (∀ (fuel : Nat) (heap : Int → Int) (i high : Int), 1 ≤ i → i ≤ 1073741823 →
      high ≤ maxn - 1 →
      downAdjustLoop (fuel + 1) heap i (2 * i) high = some heap ∨
      ∃ c, i < c ∧ c ≤ high ∧
        downAdjustLoop (fuel + 1) heap i (2 * i) high =
          downAdjustLoop fuel (swap heap i c) c (2 * c) high) ∧
    (∀ (fuel : Nat) (heap : Int → Int) (low i : Int), 1 ≤ low →
      upAdjustLoop (fuel + 1) heap low i (Int.tdiv i 2) = some heap ∨
      (Int.tdiv i 2 < i ∧ low ≤ Int.tdiv i 2 ∧
        upAdjustLoop (fuel + 1) heap low i (Int.tdiv i 2) =
          upAdjustLoop fuel (swap heap i (Int.tdiv i 2)) low (Int.tdiv i 2)
            (Int.tdiv (Int.tdiv i 2) 2))) := by
  refine ⟨fun heap low high h0 hl hh0 hh => ?_, fun heap low high h0 hh => ?_,
    fun fuel heap i high hi _ hh => ?_, fun fuel heap low i hlow => ?_⟩
  · obtain ⟨r, e, p, b⟩ := downAdjustT_spec0 heap low high h0 (by omega) (maxn_bound hh)
    refine ⟨⟨r.1, r.2, e, fun k hk => ?_⟩, r.1, p⟩
    have := b k hk
    omega
  · obtain ⟨r, e, p, b⟩ := upAdjustT_spec0 heap low high h0
    refine ⟨⟨r.1, r.2, e, fun k hk => ?_⟩, r.1, p⟩
    have := b k hk
    omega
  · obtain ⟨c, hc1, hc2, -, -, e⟩ :=
      downAdjustLoop_succ fuel heap i (2 * i) high (by omega) (maxn_bound hh)
    rw [e]
    by_cases hj : 2 * i ≤ high
    · by_cases hgt : heap c > heap i
      · rw [if_pos hj, if_pos hgt]
        exact Or.inr ⟨c, by omega, hc2 hj, rfl⟩
      · rw [if_pos hj, if_neg hgt]
        exact Or.inl rfl
    · rw [if_neg hj]
      exact Or.inl rfl
  · rw [upAdjustLoop_succ]
    by_cases hj : Int.tdiv i 2 ≥ low
    · by_cases hgt : heap i > heap (Int.tdiv i 2)
      · rw [if_pos hj, if_pos hgt]
        exact Or.inr ⟨tdiv_two_lt i (by omega), hj, rfl⟩
      · rw [if_pos hj, if_neg hgt]
        exact Or.inl rfl
    · rw [if_neg hj]
      exact Or.inl rfl

theorem adjust_terminates_witness :
    (Completes (downAdjustT (ofList [2, 7, 4]).heap 0 3) ∧
      ∃ heap1, downAdjust (ofList [2, 7, 4]).heap 0 3 = some heap1) ∧
    (Completes (upAdjustT (ofList [2, 7, 4]).heap (-2) 3) ∧
      ∃ heap1, upAdjust (ofList [2, 7, 4]).heap (-2) 3 = some heap1) ∧
    (downAdjustLoop (2 + 1) (ofList [2, 7, 4]).heap 1 (2 * 1) 3 = some (ofList [2, 7, 4]).heap ∨
      ∃ c, 1 < c ∧ c ≤ 3 ∧
        downAdjustLoop (2 + 1) (ofList [2, 7, 4]).heap 1 (2 * 1) 3 =
          downAdjustLoop 2 (swap (ofList [2, 7, 4]).heap 1 c) c (2 * c) 3) ∧
    (upAdjustLoop (2 + 1) (ofList [2, 7, 4]).heap 1 2 (Int.tdiv 2 2) =
        some (ofList [2, 7, 4]).heap ∨
      (Int.tdiv 2 2 < 2 ∧ 1 ≤ Int.tdiv 2 2 ∧
        upAdjustLoop (2 + 1) (ofList [2, 7, 4]).heap 1 2 (Int.tdiv 2 2) =
          upAdjustLoop 2 (swap (ofList [2, 7, 4]).heap 2 (Int.tdiv 2 2)) 1 (Int.tdiv 2 2)
            (Int.tdiv (Int.tdiv 2 2) 2))) :=
  ⟨adjust_terminates.1 (ofList [2, 7, 4]).heap 0 3 (by decide) (by decide) (by decide)
      (by decide),
    adjust_terminates.2.1 (ofList [2, 7, 4]).heap (-2) 3 (by decide) (by decide),
    adjust_terminates.2.2.1 2 (ofList [2, 7, 4]).heap 1 3 (by decide) (by decide)
      (by decide),
    adjust_terminates.2.2.2 2 (ofList [2, 7, 4]).heap 1 2 (by decide)⟩

end ArrayHeap
